import Mathlib

/-!
Shallow embedding of the matching-engine core from `src/unnamed/part_001`
(`matching::OrderBook`) and `src/src/matching_engine.hpp`
(`MatchingEngine::replace`).

Modelling conventions:
* `Price`, `Qty`, `OrderId` (C++ `std::int64_t`) are embedded as `Int`.
  The only place the i64 range matters is `addMarket`'s sentinel price
  (`std::numeric_limits<Price>::max()/min()`), embedded as the exact
  constants `maxPrice = 2^63 - 1` and `minPrice = -2^63`.
* The `boost::container::flat_map` sides are embedded as association lists
  sorted with the best price first: `asks` ascending by price (the C++ map
  iterates `rbegin..rend` = lowest = best first) and `bids` descending by
  price (highest = best first).  This is exactly the best-first iteration
  order the C++ code uses for matching, `canFullyMatch` and queries.
* The per-level FIFO (`std::list<Order>`) is a `List Order`; the C++
  `OrderList::iterator` stored in `OrderLocator` is represented by the
  order's id (ids are unique in a live book, so "the node this iterator
  points to" is "the first order in the level whose id matches").
* The trade callback is modelled by a ghost `log` on the book: every
  `emitTrade` appends the emitted `Trade` together with the `BookStats`
  value that the callback observes at the moment it is invoked (in the
  C++ code the stats are updated first, then the callback runs).
* Matching (`matchBuy`/`matchSell`) interleaves trade emission with level
  mutation; since `emitTrade` only touches `stats_`/the callback and the
  level walk only touches the side maps and the index, the embedding
  first computes the per-sweep results (`matchFIFO`/`matchSide`) and then
  applies the emissions in order (`emitAll`).
-/

namespace Matching

inductive Side where
  | Buy
  | Sell
deriving DecidableEq, Repr

inductive OrderType where
  | Limit
  | Market
deriving DecidableEq, Repr

inductive TimeInForce where
  | GFD
  | IOC
  | FOK
deriving DecidableEq, Repr

/-- `matching::Order` (id, price, qty, side, type, tif). -/
structure Order where
  id : Int
  price : Int
  qty : Int
  side : Side
  type : OrderType
  tif : TimeInForce
deriving DecidableEq, Repr

/-- `matching::Trade` without the symbol fields (constant per book). -/
structure Trade where
  price : Int
  qty : Int
  buy_id : Int
  sell_id : Int
deriving DecidableEq, Repr

/-- `matching::BookStats`. -/
structure BookStats where
  trade_count : Nat
  traded_qty : Int
  last_trade_price : Int
  has_last_trade : Bool
deriving DecidableEq, Repr

/-- `OrderBook::PriceLevel`: aggregate outstanding qty plus the FIFO. -/
structure PriceLevel where
  total_qty : Int
  orders : List Order
deriving DecidableEq, Repr

/-- `OrderBook::OrderLocator` (the list iterator is replaced by the id). -/
structure OrderLocator where
  side : Side
  price : Int
deriving DecidableEq, Repr

/-- The full `OrderBook` state.  `bids` is sorted descending by price
(best = head), `asks` ascending (best = head).  `log` is the ghost trace
of emitted trades with the stats snapshot seen by the callback. -/
structure Book where
  bids : List (Int × PriceLevel)
  asks : List (Int × PriceLevel)
  index : List (Int × OrderLocator)
  next_id : Int
  stats : BookStats
  log : List (Trade × BookStats)
deriving DecidableEq, Repr

def Book.empty : Book :=
  { bids := [], asks := [], index := [], next_id := 1
    stats := ⟨0, 0, 0, false⟩, log := [] }

def sumQ (l : List Order) : Int := (l.map Order.qty).sum

def sumT (l : List Trade) : Int := (l.map Trade.qty).sum

/-- The stats update performed by `OrderBook::emitTrade` before the
callback is invoked. -/
def applyTrade (s : BookStats) (t : Trade) : BookStats :=
  ⟨s.trade_count + 1, s.traded_qty + t.qty, t.price, true⟩

/-- Stats obtained from default-constructed `BookStats` after emitting a
list of trades in order. -/
def statsOf (ts : List Trade) : BookStats := ts.foldl applyTrade ⟨0, 0, 0, false⟩

/-- Apply `emitTrade` for each trade in order: update the stats, then
record the (trade, observed-stats) pair on the ghost log. -/
def emitAll (st : BookStats) (lg : List (Trade × BookStats)) (ts : List Trade) :
    BookStats × List (Trade × BookStats) :=
  ts.foldl (fun acc t =>
    let s' := applyTrade acc.1 t
    (s', acc.2 ++ [(t, s')])) (st, lg)

/-- Result of the inner FIFO walk of `matchBuy`/`matchSell` at one level:
remaining incoming qty, the surviving FIFO, trades in emission order and
the ids of fully-filled resting orders (erased from the index). -/
structure FifoRes where
  q : Int
  fifo : List Order
  trades : List Trade
  removed : List Int
deriving DecidableEq, Repr

/-- Build the `Trade` exactly as `emitTrade` is called: for an incoming
buy the resting order is the seller, and symmetrically. -/
def mkTrade (px traded aggId restingId : Int) (isBuy : Bool) : Trade :=
  if isBuy then ⟨px, traded, aggId, restingId⟩ else ⟨px, traded, restingId, aggId⟩

/-- The inner loop of `matchBuy`/`matchSell`: walk the level FIFO from
the head while the incoming qty is positive; each visited resting order
trades `min` of the two quantities, fully-filled resting orders are
erased (and their ids removed from the index). -/
def matchFIFO (px aggId : Int) (isBuy : Bool) : Int → List Order → FifoRes
  | q, [] => ⟨q, [], [], []⟩
  | q, o :: rest =>
    if 0 < q then
      let traded := min q o.qty
      let t := mkTrade px traded aggId o.id isBuy
      if o.qty - traded = 0 then
        let r := matchFIFO px aggId isBuy (q - traded) rest
        ⟨r.q, r.fifo, t :: r.trades, o.id :: r.removed⟩
      else
        let r := matchFIFO px aggId isBuy (q - traded) rest
        ⟨r.q, { o with qty := o.qty - traded } :: r.fifo, t :: r.trades, r.removed⟩
    else ⟨q, o :: rest, [], []⟩

/-- Result of a full matching sweep over one side. -/
structure SideRes where
  leftover : Int
  levels : List (Int × PriceLevel)
  trades : List Trade
  removed : List Int
deriving DecidableEq, Repr

/-- The outer loop of `matchBuy`/`matchSell`: consume opposite-side
levels best-first while the incoming qty is positive; a limit order
stops at the first level whose price does not cross
(`buy.price < bestAskPx`, resp. `sell.price > bestBidPx`); a level whose
FIFO empties is erased. -/
def matchSide (o : Order) (isBuy : Bool) : List (Int × PriceLevel) → SideRes
  | [] => ⟨o.qty, [], [], []⟩
  | (px, lvl) :: rest =>
    if 0 < o.qty then
      if o.type = OrderType.Limit ∧ (if isBuy then o.price < px else px < o.price) then
        ⟨o.qty, (px, lvl) :: rest, [], []⟩
      else
        let r := matchFIFO px o.id isBuy o.qty lvl.orders
        if r.fifo = [] then
          let r2 := matchSide { o with qty := r.q } isBuy rest
          ⟨r2.leftover, r2.levels, r.trades ++ r2.trades, r.removed ++ r2.removed⟩
        else
          ⟨r.q, (px, ⟨lvl.total_qty - (o.qty - r.q), r.fifo⟩) :: rest, r.trades, r.removed⟩
    else ⟨o.qty, (px, lvl) :: rest, [], []⟩

def indexErase (idx : List (Int × OrderLocator)) (i : Int) :
    List (Int × OrderLocator) :=
  idx.filter (fun e => e.1 ≠ i)

def indexRemoveAll (idx : List (Int × OrderLocator)) (ids : List Int) :
    List (Int × OrderLocator) :=
  idx.filter (fun e => e.1 ∉ ids)

/-- `index_[id] = loc` (assign-or-insert of `boost::unordered_flat_map`). -/
def indexInsert (idx : List (Int × OrderLocator)) (i : Int) (loc : OrderLocator) :
    List (Int × OrderLocator) :=
  (i, loc) :: indexErase idx i

def lookupIndex (idx : List (Int × OrderLocator)) (i : Int) : Option OrderLocator :=
  (idx.find? (fun e => e.1 == i)).map Prod.snd

def findLevel (ls : List (Int × PriceLevel)) (px : Int) : Option PriceLevel :=
  (ls.find? (fun pl => pl.1 == px)).map Prod.snd

def eraseLevel (ls : List (Int × PriceLevel)) (px : Int) :
    List (Int × PriceLevel) :=
  ls.filter (fun pl => pl.1 ≠ px)

/-- Insertion into a sorted side.  `cmp x y = true` means price `x` is
listed strictly before price `y` (closer to the best).  An existing
level gets the order appended at the FIFO tail (`push_back`) with
`total_qty` bumped; otherwise a fresh singleton level is created
(`bids_[o.price]` / `asks_[o.price]` on a missing key). -/
def insertOrder (cmp : Int → Int → Bool) (o : Order) :
    List (Int × PriceLevel) → List (Int × PriceLevel)
  | [] => [(o.price, ⟨o.qty, [o]⟩)]
  | (px, lvl) :: rest =>
    if o.price = px then
      (px, ⟨lvl.total_qty + o.qty, lvl.orders ++ [o]⟩) :: rest
    else if cmp o.price px then
      (o.price, ⟨o.qty, [o]⟩) :: (px, lvl) :: rest
    else
      (px, lvl) :: insertOrder cmp o rest

/-- bids are kept descending: `x` before `y` iff `y < x`. -/
def bidBefore (x y : Int) : Bool := y < x

/-- asks are kept ascending: `x` before `y` iff `x < y`. -/
def askBefore (x y : Int) : Bool := x < y

/-- `OrderBook::addRestingOrder`. -/
def addRestingOrder (b : Book) (o : Order) : Book :=
  if o.side = Side.Buy then
    { b with bids := insertOrder bidBefore o b.bids
             index := indexInsert b.index o.id ⟨o.side, o.price⟩ }
  else
    { b with asks := insertOrder askBefore o b.asks
             index := indexInsert b.index o.id ⟨o.side, o.price⟩ }

/-- `OrderBook::match`: run the sweep on the opposite side, erase the
ids of fully-filled resting orders from the index, and perform the
`emitTrade` calls in order.  Returns the book and the incoming order's
remaining qty. -/
def doMatch (b : Book) (o : Order) : Book × Int :=
  if o.side = Side.Buy then
    let r := matchSide o true b.asks
    let es := emitAll b.stats b.log r.trades
    ({ b with asks := r.levels, index := indexRemoveAll b.index r.removed
              stats := es.1, log := es.2 }, r.leftover)
  else
    let r := matchSide o false b.bids
    let es := emitAll b.stats b.log r.trades
    ({ b with bids := r.levels, index := indexRemoveAll b.index r.removed
              stats := es.1, log := es.2 }, r.leftover)

/-- The scan loop of `OrderBook::canFullyMatch`: iterate the opposite
side best-first, stop (returning false) at the first non-crossing level,
return true as soon as the accumulated `total_qty` covers the need. -/
def scanCan (price : Int) (isBuy : Bool) : Int → List (Int × PriceLevel) → Bool
  | _, [] => false
  | need, (px, lvl) :: rest =>
    if (if isBuy then price < px else px < price) then false
    else
      let need' := need - lvl.total_qty
      if need' ≤ 0 then true else scanCan price isBuy need' rest

/-- `OrderBook::canFullyMatch` (a `const` method: the embedding is a
pure function of the book, so it cannot mutate any state). -/
def canFullyMatch (b : Book) (side : Side) (price qty : Int) : Bool :=
  if qty ≤ 0 then true
  else scanCan price (side = Side.Buy)
    qty (if side = Side.Buy then b.asks else b.bids)

/-- `OrderBook::addLimit`. -/
def addLimit (b : Book) (side : Side) (price qty : Int) (tif : TimeInForce) :
    Book × Int :=
  let i := b.next_id
  let o : Order := ⟨i, price, qty, side, OrderType.Limit, tif⟩
  let b1 := { b with next_id := b.next_id + 1 }
  if tif = TimeInForce.FOK ∧ canFullyMatch b1 side price qty = false then (b1, i)
  else
    let m := doMatch b1 o
    if 0 < m.2 ∧ tif = TimeInForce.GFD then
      (addRestingOrder m.1 { o with qty := m.2 }, i)
    else (m.1, i)

/-- `std::numeric_limits<std::int64_t>::max()`. -/
def maxPrice : Int := 2 ^ 63 - 1

/-- `std::numeric_limits<std::int64_t>::min()`. -/
def minPrice : Int := -(2 ^ 63)

/-- The sentinel price of a market order:
`std::numeric_limits<Price>::max()` for a buy, `::min()` for a sell. -/
def marketPx (side : Side) : Int :=
  if side = Side.Buy then maxPrice else minPrice

/-- `OrderBook::addMarket`. -/
def addMarket (b : Book) (side : Side) (qty : Int) : Book × Int :=
  let px := marketPx side
  let i := b.next_id
  let o : Order := ⟨i, px, qty, side, OrderType.Market, TimeInForce.IOC⟩
  let b1 := { b with next_id := b.next_id + 1 }
  ((doMatch b1 o).1, i)

/-- The level update of `OrderBook::cancel`: subtract the node's qty
(when positive) from `total_qty` and unlink the node (the first FIFO
entry whose id matches). -/
def cancelLevel (lvl : PriceLevel) (i : Int) : PriceLevel :=
  let q := match lvl.orders.find? (fun o => o.id == i) with
    | some o => o.qty
    | none => 0
  ⟨if 0 < q then lvl.total_qty - q else lvl.total_qty,
    lvl.orders.eraseP (fun o => o.id == i)⟩

/-- One side branch of `OrderBook::cancel` once the index entry was
found: look the level up by the recorded price; if the level is gone,
drop the stale index entry and return false; otherwise apply
`cancelLevel` and erase the level if it became empty. -/
def cancelInLevels (ls : List (Int × PriceLevel)) (px i : Int) :
    Option (List (Int × PriceLevel)) :=
  match findLevel ls px with
  | none => none
  | some lvl =>
    let lvl' := cancelLevel lvl i
    some (if lvl'.orders = [] then eraseLevel ls px
          else ls.map (fun pl => if pl.1 = px then (px, lvl') else pl))

/-- `OrderBook::cancel`. -/
def cancel (b : Book) (i : Int) : Book × Bool :=
  match lookupIndex b.index i with
  | none => (b, false)
  | some loc =>
    if loc.side = Side.Buy then
      match cancelInLevels b.bids loc.price i with
      | none => ({ b with index := indexErase b.index i }, false)
      | some bids' => ({ b with bids := bids', index := indexErase b.index i }, true)
    else
      match cancelInLevels b.asks loc.price i with
      | none => ({ b with index := indexErase b.index i }, false)
      | some asks' => ({ b with asks := asks', index := indexErase b.index i }, true)

/-- `MatchingEngine::replace` routed to a single symbol's book:
`cancel(old_id)` (result ignored) then `addLimit(side, price, qty, tif)`. -/
def replace (b : Book) (old : Int) (side : Side) (price qty : Int)
    (tif : TimeInForce) : Book × Int :=
  addLimit (cancel b old).1 side price qty tif

/-! ### Derived observables -/

def indexIds (b : Book) : List Int := b.index.map Prod.fst

def bidPrices (b : Book) : List Int := b.bids.map Prod.fst

def askPrices (b : Book) : List Int := b.asks.map Prod.fst

def sideLevels (b : Book) (s : Side) : List (Int × PriceLevel) :=
  if s = Side.Buy then b.bids else b.asks

/-- The side an incoming order of side `s` matches against. -/
def oppLevels (b : Book) (s : Side) : List (Int × PriceLevel) :=
  if s = Side.Buy then b.asks else b.bids

/-- Trades emitted between state `b` and a later state `b'` (the log
only ever grows by appending). -/
def newTrades (b b' : Book) : List Trade :=
  (b'.log.drop b.log.length).map Prod.fst

def ordersOf (ls : List (Int × PriceLevel)) : List Order :=
  (ls.map (fun pl => pl.2.orders)).flatten

def allOrders (b : Book) : List Order := ordersOf (b.bids ++ b.asks)

def orderCount (b : Book) : Nat := (allOrders b).length

def restingQty (b : Book) : Int := sumQ (allOrders b)

/-- Sum of `total_qty` over the opposite-side levels whose price crosses
the given limit price (the spec's description of what `canFullyMatch`
tests): `≤ price` for a buy, `≥ price` for a sell. -/
def crossSum (b : Book) (side : Side) (price : Int) : Int :=
  match side with
  | Side.Buy => ((b.asks.filter (fun pl => pl.1 ≤ price)).map (fun pl => pl.2.total_qty)).sum
  | Side.Sell => ((b.bids.filter (fun pl => price ≤ pl.1)).map (fun pl => pl.2.total_qty)).sum

/-- `crossSum` generalized to a raw level list: total quantity on the
levels a limit order at price `p` would cross. -/
def crossQtyL (ib : Bool) (p : Int) (ls : List (Int × PriceLevel)) : Int :=
  ((ls.filter (fun pl => if ib then pl.1 ≤ p else p ≤ pl.1)).map
    (fun pl => pl.2.total_qty)).sum

/-- Strict best-first order on prices of the side an incoming order of
the given aggressor direction matches against: ascending for a buy
(asks), descending for a sell (bids). -/
def pOrd (isBuy : Bool) (x y : Int) : Prop := if isBuy then x < y else y < x

/-- The non-strict version of `pOrd` (trade prices of one sweep). -/
def wOrd (isBuy : Bool) (x y : Int) : Prop := if isBuy then x ≤ y else y ≤ x

def sideIsBuy : Side → Bool
  | Side.Buy => true
  | Side.Sell => false

/-- The resting (maker) order's id recorded in a trade: the seller for
an incoming buy, the buyer for an incoming sell. -/
def makerId (isBuy : Bool) (t : Trade) : Int :=
  if isBuy then t.sell_id else t.buy_id

/-- The priority discipline claimed for one matching sweep of an
incoming order of side `s` against book `b`:
1. every emitted trade's price is the price of the opposite-side level
   its maker rested on (maker's price);
2. trade prices are consumed best-first (nondecreasing for a buy,
   nonincreasing for a sell);
3. within each level the makers form a head-first segment of the FIFO. -/
def PriorityOK (b : Book) (s : Side) (ts : List Trade) : Prop :=
  (∀ t ∈ ts, ∃ pl ∈ oppLevels b s,
      pl.1 = t.price ∧ makerId (sideIsBuy s) t ∈ pl.2.orders.map Order.id) ∧
  List.Pairwise (wOrd (sideIsBuy s)) (ts.map Trade.price) ∧
  ∀ pl ∈ oppLevels b s, ∃ k,
    (ts.filter (fun t => t.price == pl.1)).map (makerId (sideIsBuy s)) =
      (pl.2.orders.map Order.id).take k

/-- Per-level invariant: non-empty FIFO, `total_qty` equal to the sum of
the resting quantities, all of them positive. -/
def LevelOK (pl : Int × PriceLevel) : Prop :=
  pl.2.orders ≠ [] ∧ pl.2.total_qty = sumQ pl.2.orders ∧ ∀ o ∈ pl.2.orders, 0 < o.qty

/-- An index entry points at a live resting order on the recorded side
and price. -/
def LocOK (b : Book) (e : Int × OrderLocator) : Prop :=
  ∃ pl ∈ sideLevels b e.2.side, pl.1 = e.2.price ∧ ∃ o ∈ pl.2.orders, o.id = e.1

/-- The book invariant maintained between public operations. -/
structure Inv (b : Book) : Prop where
  bidsSorted : List.Pairwise (pOrd false) (bidPrices b)
  asksSorted : List.Pairwise (pOrd true) (askPrices b)
  uncrossed : ∀ pb ∈ bidPrices b, ∀ pa ∈ askPrices b, pb < pa
  bidsOK : ∀ pl ∈ b.bids, LevelOK pl
  asksOK : ∀ pl ∈ b.asks, LevelOK pl
  idsLt : ∀ e ∈ b.index, e.1 < b.next_id
  locs : ∀ e ∈ b.index, LocOK b e
  oneId : 1 ≤ b.next_id
  statsEq : b.stats = statsOf (b.log.map Prod.fst)
  snaps : ∀ i, (h : i < b.log.length) →
    (b.log.get ⟨i, h⟩).2 = statsOf ((b.log.map Prod.fst).take (i + 1))

/-! ### Reachable book states -/

/-- One public operation on the book. -/
inductive Step : Book → Book → Prop where
  | limit : ∀ b side price qty tif, Step b (addLimit b side price qty tif).1
  | market : ∀ b side qty, Step b (addMarket b side qty).1
  | cancelStep : ∀ b i, Step b (cancel b i).1

/-- `b'` is obtained from `b` by a sequence of public operations. -/
def ReachFrom : Book → Book → Prop := Relation.ReflTransGen Step

/-- Books reachable from a freshly-constructed book. -/
def Reachable (b : Book) : Prop := ReachFrom Book.empty b

/-- Concrete book used to exercise the theorems: one resting GFD sell of
qty 50 at price 100. -/
def bW1 : Book := (addLimit Book.empty Side.Sell 100 50 TimeInForce.GFD).1

/-- `bW1` after an incoming GFD buy of qty 30 at 100 (one trade). -/
def bW2 : Book := (addLimit bW1 Side.Buy 100 30 TimeInForce.GFD).1

/-! ## Basic lemmas -/

theorem sumT_nil : sumT [] = 0 := rfl

theorem sumT_cons (t : Trade) (ts : List Trade) : sumT (t :: ts) = t.qty + sumT ts := by
  simp [sumT]

theorem sumT_append (xs ys : List Trade) : sumT (xs ++ ys) = sumT xs + sumT ys := by
  simp [sumT]

theorem sumQ_nil : sumQ [] = 0 := rfl

theorem sumQ_cons (o : Order) (l : List Order) : sumQ (o :: l) = o.qty + sumQ l := by
  simp [sumQ]

theorem sumQ_append (xs ys : List Order) : sumQ (xs ++ ys) = sumQ xs + sumQ ys := by
  simp [sumQ]

theorem mkTrade_qty (px tr a rid : Int) (ib : Bool) : (mkTrade px tr a rid ib).qty = tr := by
  cases ib <;> simp [mkTrade]

theorem mkTrade_price (px tr a rid : Int) (ib : Bool) : (mkTrade px tr a rid ib).price = px := by
  cases ib <;> simp [mkTrade]

theorem mkTrade_maker (px tr a rid : Int) (ib : Bool) :
    makerId ib (mkTrade px tr a rid ib) = rid := by
  cases ib <;> simp [mkTrade, makerId]

theorem pOrd_trans (ib : Bool) : Transitive (pOrd ib) := by
  cases ib <;> exact fun a b c hab hbc => by
    simp [pOrd] at *; omega

theorem pOrd_to_wOrd (ib : Bool) (x y : Int) (h : pOrd ib x y) : wOrd ib x y := by
  cases ib <;> simp [pOrd, wOrd] at * <;> omega

theorem pOrd_ne (ib : Bool) (x y : Int) (h : pOrd ib x y) : x ≠ y := by
  cases ib <;> simp [pOrd] at * <;> omega

theorem wOrd_refl (ib : Bool) (x : Int) : wOrd ib x x := by
  cases ib <;> simp [wOrd]

/-! ## `emitTrade` / stats lemmas -/

theorem statsOf_append (xs ts : List Trade) :
    statsOf (xs ++ ts) = ts.foldl applyTrade (statsOf xs) := by
  simp [statsOf, List.foldl_append]

theorem statsOf_concat (xs : List Trade) (t : Trade) :
    statsOf (xs ++ [t]) = applyTrade (statsOf xs) t := by
  simp [statsOf_append]

theorem statsOf_count (ts : List Trade) : (statsOf ts).trade_count = ts.length := by
  induction ts using List.reverseRecOn with
  | nil => rfl
  | append_singleton xs t ih => simp [statsOf_concat, applyTrade, ih]

theorem statsOf_qty (ts : List Trade) : (statsOf ts).traded_qty = sumT ts := by
  induction ts using List.reverseRecOn with
  | nil => rfl
  | append_singleton xs t ih =>
    simp [statsOf_concat, applyTrade, ih, sumT_append, sumT_cons, sumT_nil]

theorem statsOf_last (xs : List Trade) (t : Trade) :
    (statsOf (xs ++ [t])).last_trade_price = t.price ∧
      (statsOf (xs ++ [t])).has_last_trade = true := by
  simp [statsOf_concat, applyTrade]

theorem emitAll_stats (st : BookStats) (lg : List (Trade × BookStats)) (ts : List Trade) :
    (emitAll st lg ts).1 = ts.foldl applyTrade st := by
  induction ts generalizing st lg with
  | nil => rfl
  | cons t ts ih => simp [emitAll] at *; simp [ih]

theorem emitAll_log_map (st : BookStats) (lg : List (Trade × BookStats)) (ts : List Trade) :
    (emitAll st lg ts).2.map Prod.fst = lg.map Prod.fst ++ ts := by
  induction ts generalizing st lg with
  | nil => simp [emitAll]
  | cons t ts ih => simp [emitAll] at *; simp [ih]

theorem emitAll_log_len (st : BookStats) (lg : List (Trade × BookStats)) (ts : List Trade) :
    (emitAll st lg ts).2.length = lg.length + ts.length := by
  have h := congrArg List.length (emitAll_log_map st lg ts)
  simpa using h

theorem emitAll_log_drop (st : BookStats) (lg : List (Trade × BookStats)) (ts : List Trade) :
    ((emitAll st lg ts).2.drop lg.length).map Prod.fst = ts := by
  rw [List.map_drop, emitAll_log_map st lg ts]
  have := List.drop_left (lg.map Prod.fst) ts
  simp [this]

/-- The stats/snapshot invariant is preserved by a batch of emissions. -/
theorem emitAll_inv (st : BookStats) (lg : List (Trade × BookStats)) (ts : List Trade)
    (hst : st = statsOf (lg.map Prod.fst))
    (hsn : ∀ i, (h : i < lg.length) →
      (lg.get ⟨i, h⟩).2 = statsOf ((lg.map Prod.fst).take (i + 1))) :
    (emitAll st lg ts).1 = statsOf ((emitAll st lg ts).2.map Prod.fst) ∧
      ∀ i, (h : i < (emitAll st lg ts).2.length) →
        ((emitAll st lg ts).2.get ⟨i, h⟩).2 =
          statsOf (((emitAll st lg ts).2.map Prod.fst).take (i + 1)) := by
  induction ts generalizing st lg with
  | nil => exact ⟨hst, hsn⟩
  | cons t ts ih =>
    have hstep : emitAll st lg (t :: ts) =
        emitAll (applyTrade st t) (lg ++ [(t, applyTrade st t)]) ts := by
      simp [emitAll]
    rw [hstep]
    apply ih
    · rw [hst]
      simp [statsOf_concat]
    · intro i h
      rcases lt_or_ge i lg.length with hlt | hge
      · have hget : (lg ++ [(t, applyTrade st t)]).get ⟨i, h⟩ = lg.get ⟨i, hlt⟩ := by
          rw [List.get_append_left]
        rw [hget, hsn i hlt]
        congr 1
        rw [List.map_append]
        rw [List.take_append_of_le_length]
        simpa using hlt
      · have hlen : (lg ++ [(t, applyTrade st t)]).length = lg.length + 1 := by simp
        have hi : i = lg.length := by omega
        subst hi
        have hget : (lg ++ [(t, applyTrade st t)]).get ⟨lg.length, h⟩ =
            (t, applyTrade st t) := by
          rw [List.get_append_right] <;> simp
        rw [hget]
        have : ((lg ++ [(t, applyTrade st t)]).map Prod.fst).take (lg.length + 1) =
            lg.map Prod.fst ++ [t] := by
          rw [List.map_append]
          apply List.take_of_length_le
          simp
        rw [this, statsOf_concat, hst]

/-! ## `matchFIFO` lemmas -/

/-- Total traded qty of the level walk equals the qty consumed from the
incoming order. -/
theorem matchFIFO_sumT (px a : Int) (ib : Bool) (q : Int) (l : List Order) :
    sumT (matchFIFO px a ib q l).trades = q - (matchFIFO px a ib q l).q := by
  induction l generalizing q with
  | nil => simp [matchFIFO, sumT_nil]
  | cons o rest ih =>
    by_cases h : 0 < q
    · by_cases hz : o.qty - min q o.qty = 0 <;>
        simp [matchFIFO, h, hz, sumT_cons, mkTrade_qty, ih] <;> omega
    · simp [matchFIFO, h, sumT_nil]

/-- Qty consumed from the FIFO equals the qty consumed from the
incoming order. -/
theorem matchFIFO_sumQ (px a : Int) (ib : Bool) (q : Int) (l : List Order) :
    sumQ (matchFIFO px a ib q l).fifo = sumQ l - (q - (matchFIFO px a ib q l).q) := by
  induction l generalizing q with
  | nil => simp [matchFIFO, sumQ_nil]
  | cons o rest ih =>
    by_cases h : 0 < q
    · by_cases hz : o.qty - min q o.qty = 0 <;>
        simp [matchFIFO, h, hz, sumQ_cons, ih] <;> omega
    · simp [matchFIFO, h, sumQ_cons]

/-- If the surviving FIFO is non-empty, the incoming order was consumed
entirely (a resting order is kept only when it out-sizes the incoming
remainder, which zeroes it). -/
theorem matchFIFO_q_of_fifo_ne (px a : Int) (ib : Bool) (q : Int) (l : List Order) :
    0 < q → (matchFIFO px a ib q l).fifo ≠ [] → (matchFIFO px a ib q l).q = 0 := by
  induction l generalizing q with
  | nil =>
    intro _ hne
    simp [matchFIFO] at hne
  | cons o rest ih =>
    intro hq hne
    by_cases hz : o.qty - min q o.qty = 0
    · simp only [matchFIFO, if_pos hq, if_pos hz] at hne ⊢
      rcases lt_or_ge 0 (q - min q o.qty) with hq' | hq'
      · exact ih (q - min q o.qty) hq' hne
      · have hmin : min q o.qty = q := by omega
        rw [hmin] at hne ⊢
        cases rest <;> simp [matchFIFO] at hne ⊢
    · simp only [matchFIFO, if_pos hq, if_neg hz]
      have hmin : min q o.qty = q := by omega
      rw [hmin]
      cases rest <;> simp [matchFIFO]

/-- Result qty is never negative when the resting quantities are
positive. -/
theorem matchFIFO_q_nonneg (px a : Int) (ib : Bool) (q : Int) (l : List Order) :
    (∀ o ∈ l, 0 < o.qty) → 0 ≤ q → 0 ≤ (matchFIFO px a ib q l).q := by
  induction l generalizing q with
  | nil =>
    intro _ hq
    simpa [matchFIFO] using hq
  | cons o rest ih =>
    intro hl hq
    by_cases h : 0 < q
    · have ho : 0 < o.qty := hl o (by simp)
      have hrest : ∀ x ∈ rest, 0 < x.qty := fun x hx => hl x (List.mem_cons_of_mem _ hx)
      by_cases hz : o.qty - min q o.qty = 0
      · simp only [matchFIFO, if_pos h, if_pos hz]
        exact ih (q - min q o.qty) hrest (by omega)
      · simp only [matchFIFO, if_pos h, if_neg hz]
        exact ih (q - min q o.qty) hrest (by omega)
    · simpa [matchFIFO, h] using hq

theorem matchFIFO_of_nonpos (px a : Int) (ib : Bool) (q : Int) (l : List Order)
    (hq : ¬ 0 < q) : matchFIFO px a ib q l = ⟨q, l, [], []⟩ := by
  cases l <;> simp [matchFIFO, hq]

theorem sumQ_nonneg (l : List Order) (h : ∀ o ∈ l, 0 < o.qty) : 0 ≤ sumQ l := by
  induction l with
  | nil => simp [sumQ_nil]
  | cons o rest ih =>
    have := h o (by simp)
    have := ih fun x hx => h x (List.mem_cons_of_mem _ hx)
    rw [sumQ_cons]; omega

theorem sumQ_pos (l : List Order) (hne : l ≠ []) (h : ∀ o ∈ l, 0 < o.qty) :
    0 < sumQ l := by
  cases l with
  | nil => exact absurd rfl hne
  | cons o rest =>
    have := h o (by simp)
    have := sumQ_nonneg rest fun x hx => h x (List.mem_cons_of_mem _ hx)
    rw [sumQ_cons]; omega

theorem LevelOK.total_pos {pl : Int × PriceLevel} (h : LevelOK pl) :
    0 < pl.2.total_qty := by
  rcases h with ⟨hne, htot, hpos⟩
  rw [htot]
  exact sumQ_pos _ hne hpos

/-- Exact remaining qty after one level walk. -/
theorem matchFIFO_q_formula (px a : Int) (ib : Bool) (q : Int) (l : List Order) :
    (∀ o ∈ l, 0 < o.qty) → 0 < q →
    (matchFIFO px a ib q l).q = max 0 (q - sumQ l) := by
  induction l generalizing q with
  | nil =>
    intro _ hq
    simp [matchFIFO, sumQ_nil]
    omega
  | cons o rest ih =>
    intro hl hq
    have ho : 0 < o.qty := hl o (by simp)
    have hrest : ∀ x ∈ rest, 0 < x.qty := fun x hx => hl x (List.mem_cons_of_mem _ hx)
    have hrest0 : 0 ≤ sumQ rest := sumQ_nonneg rest hrest
    by_cases hz : o.qty - min q o.qty = 0
    · simp only [matchFIFO, if_pos hq, if_pos hz]
      have hmin : min q o.qty = o.qty := by omega
      rcases lt_or_ge 0 (q - min q o.qty) with hq' | hq'
      · rw [ih (q - min q o.qty) hrest hq', hmin, sumQ_cons]
        omega
      · have hq0 : q - min q o.qty = 0 := by omega
        rw [hq0, matchFIFO_of_nonpos px a ib 0 rest (by omega)]
        simp [sumQ_cons]
        omega
    · simp only [matchFIFO, if_pos hq, if_neg hz]
      have hmin : min q o.qty = q := by omega
      rw [hmin, matchFIFO_of_nonpos px a ib (q - q) rest (by omega)]
      simp [sumQ_cons]
      omega

/-- Surviving resting quantities stay positive. -/
theorem matchFIFO_pos (px a : Int) (ib : Bool) (q : Int) (l : List Order) :
    (∀ o ∈ l, 0 < o.qty) → ∀ o' ∈ (matchFIFO px a ib q l).fifo, 0 < o'.qty := by
  induction l generalizing q with
  | nil =>
    intro _ o' h'
    simp [matchFIFO] at h'
  | cons o rest ih =>
    intro hl o' h'
    have ho : 0 < o.qty := hl o (by simp)
    have hrest : ∀ x ∈ rest, 0 < x.qty := fun x hx => hl x (List.mem_cons_of_mem _ hx)
    by_cases hq : 0 < q
    · by_cases hz : o.qty - min q o.qty = 0
      · simp only [matchFIFO, if_pos hq, if_pos hz] at h'
        exact ih (q - min q o.qty) hrest o' h'
      · simp only [matchFIFO, if_pos hq, if_neg hz] at h'
        rcases List.mem_cons.mp h' with h' | h'
        · subst h'
          have : min q o.qty ≤ o.qty := min_le_right _ _
          simp
          omega
        · exact ih (q - min q o.qty) hrest o' h'
    · rw [matchFIFO_of_nonpos px a ib q _ hq] at h'
      exact hl o' h'

/-- Every resting order of the walked FIFO is either fully filled (its
id is in `removed`) or survives with the same id. -/
theorem matchFIFO_mem (px a : Int) (ib : Bool) (q : Int) (l : List Order) :
    ∀ o' ∈ l, o'.id ∈ (matchFIFO px a ib q l).removed ∨
      ∃ o'' ∈ (matchFIFO px a ib q l).fifo, o''.id = o'.id := by
  induction l generalizing q with
  | nil => intro o' h'; simp at h'
  | cons o rest ih =>
    intro o' h'
    by_cases hq : 0 < q
    · by_cases hz : o.qty - min q o.qty = 0
      · simp only [matchFIFO, if_pos hq, if_pos hz]
        rcases List.mem_cons.mp h' with h' | h'
        · subst h'; left; simp
        · rcases ih (q - min q o.qty) o' h' with h | ⟨o'', ho'', hid⟩
          · left; simp [h]
          · right; exact ⟨o'', ho'', hid⟩
      · simp only [matchFIFO, if_pos hq, if_neg hz]
        rcases List.mem_cons.mp h' with h' | h'
        · subst h'
          right
          exact ⟨{ o' with qty := o'.qty - min q o'.qty }, by simp, rfl⟩
        · rcases ih (q - min q o.qty) o' h' with h | ⟨o'', ho'', hid⟩
          · left; exact h
          · right; exact ⟨o'', List.mem_cons_of_mem _ ho'', hid⟩
    · rw [matchFIFO_of_nonpos px a ib q _ hq]
      right
      exact ⟨o', h', rfl⟩

/-- Trades of one level walk are priced at the level's price. -/
theorem matchFIFO_price (px a : Int) (ib : Bool) (q : Int) (l : List Order) :
    ∀ t ∈ (matchFIFO px a ib q l).trades, t.price = px := by
  induction l generalizing q with
  | nil => intro t ht; simp [matchFIFO] at ht
  | cons o rest ih =>
    intro t ht
    by_cases hq : 0 < q
    · by_cases hz : o.qty - min q o.qty = 0 <;>
        [simp only [matchFIFO, if_pos hq, if_pos hz] at ht;
         simp only [matchFIFO, if_pos hq, if_neg hz] at ht] <;>
      · rcases List.mem_cons.mp ht with ht | ht
        · subst ht; exact mkTrade_price _ _ _ _ _
        · exact ih (q - min q o.qty) t ht
    · rw [matchFIFO_of_nonpos px a ib q _ hq] at ht
      simp at ht

/-- The makers of one level walk are a head-first segment of the FIFO. -/
theorem matchFIFO_makers (px a : Int) (ib : Bool) (q : Int) (l : List Order) :
    (matchFIFO px a ib q l).trades.map (makerId ib) =
      (l.map Order.id).take (matchFIFO px a ib q l).trades.length := by
  induction l generalizing q with
  | nil => simp [matchFIFO]
  | cons o rest ih =>
    by_cases hq : 0 < q
    · by_cases hz : o.qty - min q o.qty = 0 <;>
        [simp only [matchFIFO, if_pos hq, if_pos hz];
         simp only [matchFIFO, if_pos hq, if_neg hz]] <;>
      · simp [mkTrade_maker, ih (q - min q o.qty)]
    · rw [matchFIFO_of_nonpos px a ib q _ hq]
      simp

theorem matchFIFO_maker_mem (px a : Int) (ib : Bool) (q : Int) (l : List Order) :
    ∀ t ∈ (matchFIFO px a ib q l).trades, makerId ib t ∈ l.map Order.id := by
  intro t ht
  have hmem : makerId ib t ∈ (matchFIFO px a ib q l).trades.map (makerId ib) :=
    List.mem_map_of_mem _ ht
  rw [matchFIFO_makers] at hmem
  exact List.take_subset _ _ hmem

/-! ## `matchSide` lemmas -/

theorem matchSide_of_nonpos (o : Order) (ib : Bool) (ls : List (Int × PriceLevel))
    (hq : ¬ 0 < o.qty) : matchSide o ib ls = ⟨o.qty, ls, [], []⟩ := by
  cases ls with
  | nil => simp [matchSide]
  | cons hd rest =>
    obtain ⟨px, lvl⟩ := hd
    simp [matchSide, hq]

/-- Total traded qty of one sweep equals the consumed incoming qty. -/
theorem matchSide_sumT (ib : Bool) (o : Order) (ls : List (Int × PriceLevel)) :
    sumT (matchSide o ib ls).trades = o.qty - (matchSide o ib ls).leftover := by
  induction ls generalizing o with
  | nil => simp [matchSide, sumT_nil]
  | cons hd rest ih =>
    obtain ⟨px, lvl⟩ := hd
    by_cases hq : 0 < o.qty
    · by_cases hbrk : o.type = OrderType.Limit ∧ (if ib then o.price < px else px < o.price)
      · simp [matchSide, hq, hbrk, sumT_nil]
      · by_cases hf : (matchFIFO px o.id ib o.qty lvl.orders).fifo = []
        · simp only [matchSide, if_pos hq, if_neg hbrk, if_pos hf]
          rw [sumT_append, matchFIFO_sumT]
          have := ih { o with qty := (matchFIFO px o.id ib o.qty lvl.orders).q }
          simp at this
          rw [this]
          omega
        · simp only [matchSide, if_pos hq, if_neg hbrk, if_neg hf]
          rw [matchFIFO_sumT]
    · rw [matchSide_of_nonpos o ib _ hq]
      simp [sumT_nil]

/-- The sweep leaves a suffix of the original price list. -/
theorem matchSide_suffix (ib : Bool) (o : Order) (ls : List (Int × PriceLevel)) :
    (matchSide o ib ls).levels.map Prod.fst <:+ ls.map Prod.fst := by
  induction ls generalizing o with
  | nil => simp [matchSide]
  | cons hd rest ih =>
    obtain ⟨px, lvl⟩ := hd
    by_cases hq : 0 < o.qty
    · by_cases hbrk : o.type = OrderType.Limit ∧ (if ib then o.price < px else px < o.price)
      · simp [matchSide, hq, hbrk]
      · by_cases hf : (matchFIFO px o.id ib o.qty lvl.orders).fifo = []
        · simp only [matchSide, if_pos hq, if_neg hbrk, if_pos hf]
          have := ih { o with qty := (matchFIFO px o.id ib o.qty lvl.orders).q }
          exact this.trans (List.suffix_cons px _)
        · simp only [matchSide, if_pos hq, if_neg hbrk, if_neg hf]
          simp
    · rw [matchSide_of_nonpos o ib _ hq]

/-- If a limit order has qty left after the sweep, every remaining level
on the opposite side fails to cross its price. -/
theorem matchSide_break (ib : Bool) (o : Order) (ls : List (Int × PriceLevel)) :
    o.type = OrderType.Limit → List.Pairwise (pOrd ib) (ls.map Prod.fst) →
    0 < (matchSide o ib ls).leftover →
    ∀ px ∈ (matchSide o ib ls).levels.map Prod.fst, pOrd ib o.price px := by
  induction ls generalizing o with
  | nil =>
    intro _ _ _ px hpx
    simp [matchSide] at hpx
  | cons hd rest ih =>
    intro hty hpw hlft px' hpx'
    obtain ⟨px, lvl⟩ := hd
    rw [List.map_cons, List.pairwise_cons] at hpw
    by_cases hq : 0 < o.qty
    · by_cases hbrk : o.type = OrderType.Limit ∧ (if ib then o.price < px else px < o.price)
      · simp only [matchSide, if_pos hq, if_pos hbrk] at hpx'
        have hhd : pOrd ib o.price px := by
          have h2 := hbrk.2
          cases ib <;> simpa [pOrd] using h2
        rcases (by simpa using hpx' :
            px' = px ∨ ∃ x, (px', x) ∈ rest) with h | ⟨x, hx⟩
        · subst h; exact hhd
        · exact pOrd_trans ib hhd (hpw.1 px' (List.mem_map.mpr ⟨(px', x), hx, rfl⟩))
      · by_cases hf : (matchFIFO px o.id ib o.qty lvl.orders).fifo = []
        · simp only [matchSide, if_pos hq, if_neg hbrk, if_pos hf] at hlft hpx'
          exact ih { o with qty := (matchFIFO px o.id ib o.qty lvl.orders).q }
            hty hpw.2 hlft px' hpx'
        · simp only [matchSide, if_pos hq, if_neg hbrk, if_neg hf] at hlft
          have := matchFIFO_q_of_fifo_ne px o.id ib o.qty lvl.orders hq hf
          omega
    · rw [matchSide_of_nonpos o ib _ hq] at hlft
      simp at hlft
      exact absurd hlft hq

/-- The per-level invariant is preserved by the sweep. -/
theorem matchSide_levelOK (ib : Bool) (o : Order) (ls : List (Int × PriceLevel)) :
    (∀ pl ∈ ls, LevelOK pl) → ∀ pl ∈ (matchSide o ib ls).levels, LevelOK pl := by
  induction ls generalizing o with
  | nil =>
    intro _ pl hpl
    simp [matchSide] at hpl
  | cons hd rest ih =>
    intro hOK pl hpl
    obtain ⟨px, lvl⟩ := hd
    have hOKrest : ∀ pl ∈ rest, LevelOK pl := fun x hx => hOK x (List.mem_cons_of_mem _ hx)
    by_cases hq : 0 < o.qty
    · by_cases hbrk : o.type = OrderType.Limit ∧ (if ib then o.price < px else px < o.price)
      · simp only [matchSide, if_pos hq, if_pos hbrk] at hpl
        exact hOK pl hpl
      · by_cases hf : (matchFIFO px o.id ib o.qty lvl.orders).fifo = []
        · simp only [matchSide, if_pos hq, if_neg hbrk, if_pos hf] at hpl
          exact ih { o with qty := (matchFIFO px o.id ib o.qty lvl.orders).q } hOKrest pl hpl
        · simp only [matchSide, if_pos hq, if_neg hbrk, if_neg hf] at hpl
          rcases List.mem_cons.mp hpl with h | h
          · subst h
            obtain ⟨hne, htot, hpos⟩ := hOK (px, lvl) (by simp)
            refine ⟨hf, ?_, ?_⟩
            · show lvl.total_qty - (o.qty - (matchFIFO px o.id ib o.qty lvl.orders).q) =
                sumQ (matchFIFO px o.id ib o.qty lvl.orders).fifo
              rw [matchFIFO_sumQ, htot]
            · exact matchFIFO_pos px o.id ib o.qty lvl.orders hpos
          · exact hOKrest pl h
    · rw [matchSide_of_nonpos o ib _ hq] at hpl
      exact hOK pl hpl

/-- Every resting order on the swept side is either fully filled (id in
`removed`) or still present at its price after the sweep. -/
theorem matchSide_present (ib : Bool) (o : Order) (ls : List (Int × PriceLevel)) :
    ∀ pl ∈ ls, ∀ o' ∈ pl.2.orders,
      o'.id ∈ (matchSide o ib ls).removed ∨
      ∃ pl' ∈ (matchSide o ib ls).levels, pl'.1 = pl.1 ∧
        ∃ o'' ∈ pl'.2.orders, o''.id = o'.id := by
  induction ls generalizing o with
  | nil => intro pl hpl; simp at hpl
  | cons hd rest ih =>
    intro pl hpl o' ho'
    obtain ⟨px, lvl⟩ := hd
    by_cases hq : 0 < o.qty
    · by_cases hbrk : o.type = OrderType.Limit ∧ (if ib then o.price < px else px < o.price)
      · simp only [matchSide, if_pos hq, if_pos hbrk]
        right
        exact ⟨pl, hpl, rfl, o', ho', rfl⟩
      · by_cases hf : (matchFIFO px o.id ib o.qty lvl.orders).fifo = []
        · simp only [matchSide, if_pos hq, if_neg hbrk, if_pos hf]
          rcases List.mem_cons.mp hpl with h | h
          · subst h
            rcases matchFIFO_mem px o.id ib o.qty lvl.orders o' ho' with hrem | ⟨o'', ho'', _⟩
            · left; simp [hrem]
            · rw [hf] at ho''; simp at ho''
          · rcases ih { o with qty := (matchFIFO px o.id ib o.qty lvl.orders).q }
                pl h o' ho' with hrem | ⟨pl', hpl', hpx, hex⟩
            · left; simp [hrem]
            · right; exact ⟨pl', hpl', hpx, hex⟩
        · simp only [matchSide, if_pos hq, if_neg hbrk, if_neg hf]
          rcases List.mem_cons.mp hpl with h | h
          · subst h
            rcases matchFIFO_mem px o.id ib o.qty lvl.orders o' ho' with hrem | ⟨o'', ho'', hid⟩
            · left; exact hrem
            · right
              refine ⟨(px, ⟨lvl.total_qty - (o.qty - (matchFIFO px o.id ib o.qty lvl.orders).q),
                (matchFIFO px o.id ib o.qty lvl.orders).fifo⟩), by simp, rfl, o'', ho'', hid⟩
          · right
            exact ⟨pl, List.mem_cons_of_mem _ h, rfl, o', ho', rfl⟩
    · rw [matchSide_of_nonpos o ib _ hq]
      right
      exact ⟨pl, hpl, rfl, o', ho', rfl⟩

theorem crossQtyL_nil (ib : Bool) (p : Int) : crossQtyL ib p [] = 0 := rfl

theorem crossQtyL_cons (ib : Bool) (p px : Int) (lvl : PriceLevel)
    (rest : List (Int × PriceLevel)) :
    crossQtyL ib p ((px, lvl) :: rest) =
      (if (if ib then px ≤ p else p ≤ px) then lvl.total_qty else 0) +
        crossQtyL ib p rest := by
  by_cases hc : if ib then px ≤ p else p ≤ px
  · simp [crossQtyL, hc]
  · simp [crossQtyL, hc]

theorem crossQtyL_nonneg (ib : Bool) (p : Int) (ls : List (Int × PriceLevel))
    (h : ∀ pl ∈ ls, LevelOK pl) : 0 ≤ crossQtyL ib p ls := by
  induction ls with
  | nil => simp [crossQtyL_nil]
  | cons hd rest ih =>
    obtain ⟨px, lvl⟩ := hd
    have htot : 0 < lvl.total_qty := by
      simpa using (h (px, lvl) (by simp)).total_pos
    have := ih fun x hx => h x (List.mem_cons_of_mem _ hx)
    rw [crossQtyL_cons]
    by_cases hc : if ib then px ≤ p else p ≤ px <;> simp [hc] <;> omega

theorem crossQtyL_zero (ib : Bool) (p : Int) (ls : List (Int × PriceLevel))
    (h : ∀ pl ∈ ls, pOrd ib p pl.1) : crossQtyL ib p ls = 0 := by
  induction ls with
  | nil => simp [crossQtyL_nil]
  | cons hd rest ih =>
    obtain ⟨px, lvl⟩ := hd
    have hhd := h (px, lvl) (by simp)
    have hc : ¬ (if ib then px ≤ p else p ≤ px) := by
      cases ib <;> simp [pOrd] at hhd <;> simp <;> omega
    rw [crossQtyL_cons, if_neg hc, ih fun x hx => h x (List.mem_cons_of_mem _ hx)]
    omega

/-- Exact leftover of a limit-order sweep: the incoming qty minus the
total crossing quantity, floored at zero. -/
theorem matchSide_leftover (ib : Bool) (o : Order) (ls : List (Int × PriceLevel)) :
    o.type = OrderType.Limit → List.Pairwise (pOrd ib) (ls.map Prod.fst) →
    (∀ pl ∈ ls, LevelOK pl) → 0 < o.qty →
    (matchSide o ib ls).leftover = max 0 (o.qty - crossQtyL ib o.price ls) := by
  induction ls generalizing o with
  | nil =>
    intro _ _ _ hq
    simp [matchSide, crossQtyL_nil]
    omega
  | cons hd rest ih =>
    intro hty hpw hOK hq
    obtain ⟨px, lvl⟩ := hd
    rw [List.map_cons, List.pairwise_cons] at hpw
    have hOKhd := hOK (px, lvl) (by simp)
    have hOKrest : ∀ pl ∈ rest, LevelOK pl := fun x hx => hOK x (List.mem_cons_of_mem _ hx)
    by_cases hbrk : o.type = OrderType.Limit ∧ (if ib then o.price < px else px < o.price)
    · simp only [matchSide, if_pos hq, if_pos hbrk]
      have hzero : crossQtyL ib o.price ((px, lvl) :: rest) = 0 := by
        apply crossQtyL_zero
        intro pl hpl
        rcases List.mem_cons.mp hpl with h | h
        · subst h
          have h2 := hbrk.2
          cases ib <;> simpa [pOrd] using h2
        · have hhd : pOrd ib o.price px := by
            have h2 := hbrk.2
            cases ib <;> simpa [pOrd] using h2
          exact pOrd_trans ib hhd (hpw.1 pl.1 (List.mem_map.mpr ⟨pl, h, rfl⟩))
      rw [hzero]
      simp
      omega
    · have hcross : if ib then px ≤ o.price else o.price ≤ px := by
        rcases not_and_or.mp hbrk with h | h
        · exact absurd hty h
        · cases ib <;> simp at h ⊢ <;> omega
      have hform := matchFIFO_q_formula px o.id ib o.qty lvl.orders hOKhd.2.2 hq
      have hrest0 : 0 ≤ crossQtyL ib o.price rest := crossQtyL_nonneg ib o.price rest hOKrest
      have htot : lvl.total_qty = sumQ lvl.orders := hOKhd.2.1
      by_cases hf : (matchFIFO px o.id ib o.qty lvl.orders).fifo = []
      · simp only [matchSide, if_pos hq, if_neg hbrk, if_pos hf]
        rcases lt_or_ge 0 ((matchFIFO px o.id ib o.qty lvl.orders).q) with hq' | hq'
        · have hih : (matchSide { o with qty := (matchFIFO px o.id ib o.qty lvl.orders).q }
              ib rest).leftover =
              max 0 ((matchFIFO px o.id ib o.qty lvl.orders).q -
                crossQtyL ib o.price rest) := by
            have := ih { o with qty := (matchFIFO px o.id ib o.qty lvl.orders).q }
              hty hpw.2 hOKrest hq'
            simpa using this
          rw [hih, crossQtyL_cons, if_pos hcross, htot, hform]
          omega
        · have hq'' : ¬ 0 <
              ({ o with qty := (matchFIFO px o.id ib o.qty lvl.orders).q } : Order).qty := by
            dsimp only
            omega
          rw [matchSide_of_nonpos _ ib rest hq'']
          rw [crossQtyL_cons, if_pos hcross, htot]
          dsimp only
          omega
      · simp only [matchSide, if_pos hq, if_neg hbrk, if_neg hf]
        have hq0 := matchFIFO_q_of_fifo_ne px o.id ib o.qty lvl.orders hq hf
        rw [hq0, crossQtyL_cons, if_pos hcross, htot]
        omega

/-- Every trade of a sweep is priced at one of the swept level prices. -/
theorem matchSide_price_mem (ib : Bool) (o : Order) (ls : List (Int × PriceLevel)) :
    ∀ t ∈ (matchSide o ib ls).trades, t.price ∈ ls.map Prod.fst := by
  induction ls generalizing o with
  | nil => intro t ht; simp [matchSide] at ht
  | cons hd rest ih =>
    intro t ht
    obtain ⟨px, lvl⟩ := hd
    by_cases hq : 0 < o.qty
    · by_cases hbrk : o.type = OrderType.Limit ∧ (if ib then o.price < px else px < o.price)
      · simp only [matchSide, if_pos hq, if_pos hbrk] at ht
        simp at ht
      · by_cases hf : (matchFIFO px o.id ib o.qty lvl.orders).fifo = []
        · simp only [matchSide, if_pos hq, if_neg hbrk, if_pos hf] at ht
          rcases List.mem_append.mp (by simpa using ht) with h | h
          · rw [matchFIFO_price px o.id ib o.qty lvl.orders t h]
            simp
          · have := ih { o with qty := (matchFIFO px o.id ib o.qty lvl.orders).q } t h
            simp at this ⊢
            tauto
        · simp only [matchSide, if_pos hq, if_neg hbrk, if_neg hf] at ht
          rw [matchFIFO_price px o.id ib o.qty lvl.orders t ht]
          simp
    · rw [matchSide_of_nonpos o ib _ hq] at ht
      simp at ht

/-- Claim-C1 part (a): the maker of every trade rests on an opposite
level priced at the trade's price. -/
theorem matchSide_maker_mem (ib : Bool) (o : Order) (ls : List (Int × PriceLevel)) :
    ∀ t ∈ (matchSide o ib ls).trades, ∃ pl ∈ ls,
      pl.1 = t.price ∧ makerId ib t ∈ pl.2.orders.map Order.id := by
  induction ls generalizing o with
  | nil => intro t ht; simp [matchSide] at ht
  | cons hd rest ih =>
    intro t ht
    obtain ⟨px, lvl⟩ := hd
    by_cases hq : 0 < o.qty
    · by_cases hbrk : o.type = OrderType.Limit ∧ (if ib then o.price < px else px < o.price)
      · simp only [matchSide, if_pos hq, if_pos hbrk] at ht
        simp at ht
      · by_cases hf : (matchFIFO px o.id ib o.qty lvl.orders).fifo = []
        · simp only [matchSide, if_pos hq, if_neg hbrk, if_pos hf] at ht
          rcases List.mem_append.mp (by simpa using ht) with h | h
          · exact ⟨(px, lvl), by simp, (matchFIFO_price px o.id ib o.qty lvl.orders t h).symm,
              matchFIFO_maker_mem px o.id ib o.qty lvl.orders t h⟩
          · obtain ⟨pl, hpl, hpx, hmk⟩ :=
              ih { o with qty := (matchFIFO px o.id ib o.qty lvl.orders).q } t h
            exact ⟨pl, List.mem_cons_of_mem _ hpl, hpx, hmk⟩
        · simp only [matchSide, if_pos hq, if_neg hbrk, if_neg hf] at ht
          exact ⟨(px, lvl), by simp, (matchFIFO_price px o.id ib o.qty lvl.orders t ht).symm,
            matchFIFO_maker_mem px o.id ib o.qty lvl.orders t ht⟩
    · rw [matchSide_of_nonpos o ib _ hq] at ht
      simp at ht

theorem pairwise_wOrd_const (ib : Bool) (xs : List Int) (c : Int)
    (h : ∀ x ∈ xs, x = c) : List.Pairwise (wOrd ib) xs := by
  induction xs with
  | nil => exact List.Pairwise.nil
  | cons x rest ih =>
    refine List.Pairwise.cons ?_ (ih fun y hy => h y (List.mem_cons_of_mem _ hy))
    intro y hy
    rw [h x (by simp), h y (List.mem_cons_of_mem _ hy)]
    exact wOrd_refl ib c

/-- Claim-C1 part (b): trade prices of one sweep are consumed
best-first. -/
theorem matchSide_pairwise (ib : Bool) (o : Order) (ls : List (Int × PriceLevel)) :
    List.Pairwise (pOrd ib) (ls.map Prod.fst) →
    List.Pairwise (wOrd ib) ((matchSide o ib ls).trades.map Trade.price) := by
  induction ls generalizing o with
  | nil => intro _; simp [matchSide]
  | cons hd rest ih =>
    intro hpw
    obtain ⟨px, lvl⟩ := hd
    rw [List.map_cons, List.pairwise_cons] at hpw
    by_cases hq : 0 < o.qty
    · by_cases hbrk : o.type = OrderType.Limit ∧ (if ib then o.price < px else px < o.price)
      · simp [matchSide, hq, hbrk]
      · by_cases hf : (matchFIFO px o.id ib o.qty lvl.orders).fifo = []
        · simp only [matchSide, if_pos hq, if_neg hbrk, if_pos hf]
          have hgoal : List.Pairwise (wOrd ib)
              (((matchFIFO px o.id ib o.qty lvl.orders).trades ++
                (matchSide { o with qty := (matchFIFO px o.id ib o.qty lvl.orders).q }
                  ib rest).trades).map Trade.price) := by
            rw [List.map_append, List.pairwise_append]
            refine ⟨pairwise_wOrd_const ib _ px ?_,
              ih { o with qty := (matchFIFO px o.id ib o.qty lvl.orders).q } hpw.2, ?_⟩
            · intro x hx
              obtain ⟨t, ht, hteq⟩ := List.mem_map.mp hx
              rw [← hteq]
              exact matchFIFO_price px o.id ib o.qty lvl.orders t ht
            · intro x hx y hy
              obtain ⟨t, ht, hteq⟩ := List.mem_map.mp hx
              obtain ⟨u, hu, hueq⟩ := List.mem_map.mp hy
              have hx' : x = px := by
                rw [← hteq]; exact matchFIFO_price px o.id ib o.qty lvl.orders t ht
              have hy' : y ∈ rest.map Prod.fst := by
                rw [← hueq]
                exact matchSide_price_mem ib _ rest u hu
              rw [hx']
              exact pOrd_to_wOrd ib px y (hpw.1 y hy')
          simpa using hgoal
        · simp only [matchSide, if_pos hq, if_neg hbrk, if_neg hf]
          apply pairwise_wOrd_const ib _ px
          intro x hx
          obtain ⟨t, ht, hteq⟩ := List.mem_map.mp hx
          rw [← hteq]
          exact matchFIFO_price px o.id ib o.qty lvl.orders t ht
    · rw [matchSide_of_nonpos o ib _ hq]
      simp

theorem filter_price_all (px : Int) (l : List Trade) (h : ∀ t ∈ l, t.price = px) :
    l.filter (fun t => t.price == px) = l := by
  induction l with
  | nil => rfl
  | cons t rest ih =>
    have ht := h t (by simp)
    rw [List.filter_cons]
    simp [ht, ih fun u hu => h u (List.mem_cons_of_mem _ hu)]

theorem filter_price_none (px : Int) (l : List Trade) (h : ∀ t ∈ l, t.price ≠ px) :
    l.filter (fun t => t.price == px) = [] := by
  induction l with
  | nil => rfl
  | cons t rest ih =>
    have ht := h t (by simp)
    rw [List.filter_cons]
    simp [ht, ih fun u hu => h u (List.mem_cons_of_mem _ hu)]

/-- Claim-C1 part (c): at each level, the makers of a sweep are a
head-first segment of the FIFO. -/
theorem matchSide_segment (ib : Bool) (o : Order) (ls : List (Int × PriceLevel)) :
    List.Pairwise (pOrd ib) (ls.map Prod.fst) →
    ∀ pl ∈ ls, ∃ k,
      ((matchSide o ib ls).trades.filter (fun t => t.price == pl.1)).map (makerId ib) =
        (pl.2.orders.map Order.id).take k := by
  induction ls generalizing o with
  | nil => intro _ pl hpl; simp at hpl
  | cons hd rest ih =>
    intro hpw pl hpl
    obtain ⟨px, lvl⟩ := hd
    rw [List.map_cons, List.pairwise_cons] at hpw
    have hne_head : ∀ pl' ∈ rest, px ≠ pl'.1 := by
      intro pl' hpl'
      exact pOrd_ne ib px pl'.1 (hpw.1 pl'.1 (List.mem_map.mpr ⟨pl', hpl', rfl⟩))
    by_cases hq : 0 < o.qty
    · by_cases hbrk : o.type = OrderType.Limit ∧ (if ib then o.price < px else px < o.price)
      · refine ⟨0, ?_⟩
        simp [matchSide, hq, hbrk]
      · by_cases hf : (matchFIFO px o.id ib o.qty lvl.orders).fifo = []
        · simp only [matchSide, if_pos hq, if_neg hbrk, if_pos hf]
          rcases List.mem_cons.mp hpl with h | h
          · subst h
            refine ⟨(matchFIFO px o.id ib o.qty lvl.orders).trades.length, ?_⟩
            have hsplit : ((matchFIFO px o.id ib o.qty lvl.orders).trades ++
                (matchSide { o with qty := (matchFIFO px o.id ib o.qty lvl.orders).q }
                  ib rest).trades).filter (fun t => t.price == px) =
                (matchFIFO px o.id ib o.qty lvl.orders).trades := by
              rw [List.filter_append,
                filter_price_all px _ (matchFIFO_price px o.id ib o.qty lvl.orders),
                filter_price_none px _ ?_, List.append_nil]
              intro t ht
              have := matchSide_price_mem ib _ rest t ht
              obtain ⟨pl', hpl', hpx⟩ := List.mem_map.mp this
              rw [← hpx]
              exact fun hcontra => hne_head pl' hpl' hcontra.symm
            simp only [hsplit]
            exact matchFIFO_makers px o.id ib o.qty lvl.orders
          · obtain ⟨k, hk⟩ :=
              ih { o with qty := (matchFIFO px o.id ib o.qty lvl.orders).q } hpw.2 pl h
            refine ⟨k, ?_⟩
            have hfilt : ((matchFIFO px o.id ib o.qty lvl.orders).trades ++
                (matchSide { o with qty := (matchFIFO px o.id ib o.qty lvl.orders).q }
                  ib rest).trades).filter (fun t => t.price == pl.1) =
                ((matchSide { o with qty := (matchFIFO px o.id ib o.qty lvl.orders).q }
                  ib rest).trades).filter (fun t => t.price == pl.1) := by
              rw [List.filter_append, filter_price_none pl.1 _ ?_, List.nil_append]
              intro t ht
              rw [matchFIFO_price px o.id ib o.qty lvl.orders t ht]
              exact hne_head pl h
            simp only [hfilt]
            exact hk
        · simp only [matchSide, if_pos hq, if_neg hbrk, if_neg hf]
          rcases List.mem_cons.mp hpl with h | h
          · subst h
            refine ⟨(matchFIFO px o.id ib o.qty lvl.orders).trades.length, ?_⟩
            rw [filter_price_all px _ (matchFIFO_price px o.id ib o.qty lvl.orders)]
            exact matchFIFO_makers px o.id ib o.qty lvl.orders
          · refine ⟨0, ?_⟩
            rw [filter_price_none pl.1 _ ?_]
            · simp
            · intro t ht
              rw [matchFIFO_price px o.id ib o.qty lvl.orders t ht]
              exact hne_head pl h
    · refine ⟨0, ?_⟩
      rw [matchSide_of_nonpos o ib _ hq]
      simp

/-! ## `canFullyMatch` lemmas -/

/-- The feasibility scan decides exactly whether the crossing quantity
covers the need (on a sorted side with well-formed levels). -/
theorem scanCan_iff (p : Int) (ib : Bool) (need : Int) (ls : List (Int × PriceLevel)) :
    0 < need → List.Pairwise (pOrd ib) (ls.map Prod.fst) → (∀ pl ∈ ls, LevelOK pl) →
    (scanCan p ib need ls = true ↔ need ≤ crossQtyL ib p ls) := by
  induction ls generalizing need with
  | nil =>
    intro hneed _ _
    simp [scanCan, crossQtyL_nil]
    omega
  | cons hd rest ih =>
    intro hneed hpw hOK
    obtain ⟨px, lvl⟩ := hd
    rw [List.map_cons, List.pairwise_cons] at hpw
    have hOKrest : ∀ pl ∈ rest, LevelOK pl := fun x hx => hOK x (List.mem_cons_of_mem _ hx)
    by_cases hb : if ib then p < px else px < p
    · have hzero : crossQtyL ib p ((px, lvl) :: rest) = 0 := by
        apply crossQtyL_zero
        intro pl hpl
        have hhd : pOrd ib p px := by cases ib <;> simpa [pOrd] using hb
        rcases List.mem_cons.mp hpl with h | h
        · subst h; exact hhd
        · exact pOrd_trans ib hhd (hpw.1 pl.1 (List.mem_map.mpr ⟨pl, h, rfl⟩))
      rw [hzero]
      simp only [scanCan, if_pos hb]
      simp
      omega
    · have hcross : if ib then px ≤ p else p ≤ px := by
        cases ib <;> simp at hb ⊢ <;> omega
      rw [crossQtyL_cons, if_pos hcross]
      have hrest0 : 0 ≤ crossQtyL ib p rest := crossQtyL_nonneg ib p rest hOKrest
      by_cases hdone : need - lvl.total_qty ≤ 0
      · simp only [scanCan, if_neg hb, if_pos hdone]
        simp
        omega
      · simp only [scanCan, if_neg hb, if_neg hdone]
        rw [ih (need - lvl.total_qty) (by omega) hpw.2 hOKrest]
        omega

/-! ## `insertOrder` lemmas -/

theorem insertOrder_price_mem (cmp : Int → Int → Bool) (o : Order)
    (ls : List (Int × PriceLevel)) :
    ∀ p' ∈ (insertOrder cmp o ls).map Prod.fst, p' ∈ ls.map Prod.fst ∨ p' = o.price := by
  induction ls with
  | nil => intro p' h; simp [insertOrder] at h; simp [h]
  | cons hd rest ih =>
    intro p' h
    obtain ⟨px, lvl⟩ := hd
    by_cases he : o.price = px
    · simp only [insertOrder, if_pos he] at h
      rcases (by simpa using h : p' = px ∨ ∃ x, (p', x) ∈ rest) with h | ⟨x, hx⟩
      · left; simp [h]
      · left; simp; right; exact ⟨x, hx⟩
    · by_cases hc : cmp o.price px = true
      · simp only [insertOrder, if_neg he, if_pos hc] at h
        rcases (by simpa using h :
            p' = o.price ∨ p' = px ∨ ∃ x, (p', x) ∈ rest) with h | h | ⟨x, hx⟩
        · right; exact h
        · left; simp [h]
        · left; simp; right; exact ⟨x, hx⟩
      · simp only [insertOrder, if_neg he, if_neg (by simpa using hc : ¬ cmp o.price px)] at h
        rcases (by simpa using h :
            p' = px ∨ ∃ x, (p', x) ∈ insertOrder cmp o rest) with h | ⟨x, hx⟩
        · left; simp [h]
        · rcases ih p' (List.mem_map.mpr ⟨(p', x), hx, rfl⟩) with h | h
          · left; exact List.mem_cons_of_mem _ h
          · right; exact h

theorem insertOrder_pairwise (cmp : Int → Int → Bool) (R : Int → Int → Prop)
    (hcmp : ∀ x y, cmp x y = true ↔ R x y)
    (htri : ∀ x y : Int, x = y ∨ R x y ∨ R y x)
    (htrans : Transitive R) (o : Order) (ls : List (Int × PriceLevel)) :
    List.Pairwise R (ls.map Prod.fst) →
    List.Pairwise R ((insertOrder cmp o ls).map Prod.fst) := by
  induction ls with
  | nil => intro _; simp [insertOrder]
  | cons hd rest ih =>
    intro hpw
    obtain ⟨px, lvl⟩ := hd
    rw [List.map_cons, List.pairwise_cons] at hpw
    by_cases he : o.price = px
    · simp only [insertOrder, if_pos he]
      rw [List.map_cons, List.pairwise_cons]
      exact hpw
    · by_cases hc : cmp o.price px = true
      · simp only [insertOrder, if_neg he, if_pos hc]
        have hR : R o.price px := (hcmp _ _).mp hc
        rw [List.map_cons, List.pairwise_cons]
        constructor
        · intro y hy
          rcases (by simpa using hy : y = px ∨ ∃ x, (y, x) ∈ rest) with h | ⟨x, hx⟩
          · subst h; exact hR
          · exact htrans hR (hpw.1 y (List.mem_map.mpr ⟨(y, x), hx, rfl⟩))
        · rw [List.map_cons, List.pairwise_cons]
          exact hpw
      · simp only [insertOrder, if_neg he, if_neg (by simpa using hc : ¬ cmp o.price px)]
        rw [List.map_cons, List.pairwise_cons]
        constructor
        · intro y hy
          rcases insertOrder_price_mem cmp o rest y hy with h | h
          · exact hpw.1 y h
          · subst h
            rcases htri o.price px with h | h | h
            · exact absurd h he
            · exact absurd ((hcmp _ _).mpr h) (by simpa using hc)
            · exact h
        · exact ih hpw.2

theorem insertOrder_levelOK (cmp : Int → Int → Bool) (o : Order)
    (ls : List (Int × PriceLevel)) :
    (∀ pl ∈ ls, LevelOK pl) → 0 < o.qty →
    ∀ pl ∈ insertOrder cmp o ls, LevelOK pl := by
  induction ls with
  | nil =>
    intro _ ho pl hpl
    simp [insertOrder] at hpl
    subst hpl
    exact ⟨by simp, by simp [sumQ_cons, sumQ_nil], by simpa using ho⟩
  | cons hd rest ih =>
    intro hOK ho pl hpl
    obtain ⟨px, lvl⟩ := hd
    have hOKrest : ∀ pl ∈ rest, LevelOK pl := fun x hx => hOK x (List.mem_cons_of_mem _ hx)
    by_cases he : o.price = px
    · simp only [insertOrder, if_pos he] at hpl
      rcases List.mem_cons.mp hpl with h | h
      · subst h
        obtain ⟨hne, htot, hpos⟩ := hOK (px, lvl) (by simp)
        refine ⟨by simp, ?_, ?_⟩
        · show lvl.total_qty + o.qty = sumQ (lvl.orders ++ [o])
          rw [sumQ_append, htot, sumQ_cons, sumQ_nil]
          ring
        · intro x hx
          rcases List.mem_append.mp hx with h | h
          · exact hpos x h
          · simp at h; subst h; exact ho
      · exact hOKrest pl h
    · by_cases hc : cmp o.price px = true
      · simp only [insertOrder, if_neg he, if_pos hc] at hpl
        rcases List.mem_cons.mp hpl with h | h
        · subst h
          exact ⟨by simp, by simp [sumQ_cons, sumQ_nil], by simpa using ho⟩
        · exact hOK pl h
      · simp only [insertOrder, if_neg he,
          if_neg (by simpa using hc : ¬ cmp o.price px)] at hpl
        rcases List.mem_cons.mp hpl with h | h
        · subst h; exact hOK (px, lvl) (by simp)
        · exact ih hOKrest ho pl h

theorem insertOrder_present (cmp : Int → Int → Bool) (o : Order)
    (ls : List (Int × PriceLevel)) (px₀ i₀ : Int) :
    (∃ pl ∈ ls, pl.1 = px₀ ∧ ∃ oo ∈ pl.2.orders, oo.id = i₀) →
    ∃ pl ∈ insertOrder cmp o ls, pl.1 = px₀ ∧ ∃ oo ∈ pl.2.orders, oo.id = i₀ := by
  induction ls with
  | nil => intro ⟨pl, hpl, _⟩; simp at hpl
  | cons hd rest ih =>
    intro ⟨pl, hpl, hpx, oo, hoo, hid⟩
    obtain ⟨px, lvl⟩ := hd
    by_cases he : o.price = px
    · simp only [insertOrder, if_pos he]
      rcases List.mem_cons.mp hpl with h | h
      · subst h
        exact ⟨(px, ⟨lvl.total_qty + o.qty, lvl.orders ++ [o]⟩), by simp, hpx,
          oo, List.mem_append_left _ hoo, hid⟩
      · exact ⟨pl, List.mem_cons_of_mem _ h, hpx, oo, hoo, hid⟩
    · by_cases hc : cmp o.price px = true
      · simp only [insertOrder, if_neg he, if_pos hc]
        exact ⟨pl, List.mem_cons_of_mem _ hpl, hpx, oo, hoo, hid⟩
      · simp only [insertOrder, if_neg he, if_neg (by simpa using hc : ¬ cmp o.price px)]
        rcases List.mem_cons.mp hpl with h | h
        · subst h
          exact ⟨(px, lvl), by simp, hpx, oo, hoo, hid⟩
        · obtain ⟨pl', hpl', hpx', hex⟩ := ih ⟨pl, h, hpx, oo, hoo, hid⟩
          exact ⟨pl', List.mem_cons_of_mem _ hpl', hpx', hex⟩

/-- The inserted order lands at the tail of its level's FIFO. -/
theorem insertOrder_tail (cmp : Int → Int → Bool) (o : Order)
    (ls : List (Int × PriceLevel)) :
    ∃ pl ∈ insertOrder cmp o ls, pl.1 = o.price ∧ o ∈ pl.2.orders ∧
      (pl.2.orders.map Order.id).getLast? = some o.id := by
  induction ls with
  | nil =>
    refine ⟨(o.price, ⟨o.qty, [o]⟩), by simp [insertOrder], rfl, by simp, ?_⟩
    simp
  | cons hd rest ih =>
    obtain ⟨px, lvl⟩ := hd
    by_cases he : o.price = px
    · simp only [insertOrder, if_pos he]
      refine ⟨(px, ⟨lvl.total_qty + o.qty, lvl.orders ++ [o]⟩), by simp, he.symm,
        by simp, ?_⟩
      rw [List.map_append]
      simp
    · by_cases hc : cmp o.price px = true
      · simp only [insertOrder, if_neg he, if_pos hc]
        refine ⟨(o.price, ⟨o.qty, [o]⟩), by simp, rfl, by simp, ?_⟩
        simp
      · simp only [insertOrder, if_neg he, if_neg (by simpa using hc : ¬ cmp o.price px)]
        obtain ⟨pl, hpl, hpx, hmem, hlast⟩ := ih
        exact ⟨pl, List.mem_cons_of_mem _ hpl, hpx, hmem, hlast⟩

/-! ## `eraseP`/`find?` helpers for cancel -/

theorem find_eraseP_sumQ (i : Int) (l : List Order) (o₀ : Order)
    (h : l.find? (fun o => o.id == i) = some o₀) :
    sumQ (l.eraseP (fun o => o.id == i)) = sumQ l - o₀.qty := by
  induction l with
  | nil => simp at h
  | cons o rest ih =>
    by_cases ho : (o.id == i) = true
    · simp only [List.find?_cons, ho] at h
      injection h with h
      subst h
      simp only [List.eraseP_cons, ho, cond_true, sumQ_cons]
      ring
    · simp only [List.find?_cons, ho] at h
      simp only [List.eraseP_cons, ho, cond_false, sumQ_cons]
      rw [ih h]
      ring

theorem find_eraseP_len (i : Int) (l : List Order) (o₀ : Order)
    (h : l.find? (fun o => o.id == i) = some o₀) :
    (l.eraseP (fun o => o.id == i)).length + 1 = l.length := by
  induction l with
  | nil => simp at h
  | cons o rest ih =>
    by_cases ho : (o.id == i) = true
    · simp only [List.eraseP_cons, ho, cond_true]
      simp
    · simp only [List.find?_cons, ho] at h
      simp only [List.eraseP_cons, ho, cond_false]
      simp [← ih h]

theorem mem_eraseP_of_ne (i : Int) (l : List Order) (o' : Order)
    (h : o' ∈ l) (hne : o'.id ≠ i) : o' ∈ l.eraseP (fun o => o.id == i) := by
  induction l with
  | nil => simp at h
  | cons o rest ih =>
    by_cases ho : (o.id == i) = true
    · simp only [List.eraseP_cons, ho, cond_true]
      rcases List.mem_cons.mp h with h | h
      · subst h; exact absurd (by simpa using ho) hne
      · exact h
    · simp only [List.eraseP_cons, ho, cond_false]
      rcases List.mem_cons.mp h with h | h
      · subst h; simp
      · exact List.mem_cons_of_mem _ (ih h)

theorem eraseP_nil_singleton (i : Int) (l : List Order) (o₀ : Order)
    (h : l.find? (fun o => o.id == i) = some o₀)
    (hnil : l.eraseP (fun o => o.id == i) = []) : l = [o₀] := by
  have hlen := find_eraseP_len i l o₀ h
  rw [hnil] at hlen
  cases l with
  | nil => simp at h
  | cons o rest =>
    have hrest : rest = [] := by
      have hr : rest.length = 0 := by
        simp only [List.length_nil, List.length_cons] at hlen
        omega
      exact List.eq_nil_of_length_eq_zero hr
    subst hrest
    have hmem := List.mem_of_find?_eq_some h
    simp at hmem
    simp [hmem]

theorem ordersOf_nil : ordersOf [] = [] := rfl

theorem ordersOf_cons (pl : Int × PriceLevel) (ls : List (Int × PriceLevel)) :
    ordersOf (pl :: ls) = pl.2.orders ++ ordersOf ls := by
  simp [ordersOf]

theorem ordersOf_append (l₁ l₂ : List (Int × PriceLevel)) :
    ordersOf (l₁ ++ l₂) = ordersOf l₁ ++ ordersOf l₂ := by
  simp [ordersOf]

theorem pairwise_ne_of_pOrd (ib : Bool) (l : List Int)
    (h : List.Pairwise (pOrd ib) l) : List.Pairwise (fun x y : Int => x ≠ y) l :=
  h.imp fun {x y} hxy => pOrd_ne ib x y hxy

/-- On a duplicate-free side, `findLevel` returns exactly the member
level with that price. -/
theorem findLevel_of_mem (ls : List (Int × PriceLevel)) (px : Int) (lvl : PriceLevel)
    (hnd : List.Pairwise (fun x y : Int => x ≠ y) (ls.map Prod.fst))
    (hmem : (px, lvl) ∈ ls) : findLevel ls px = some lvl := by
  induction ls with
  | nil => simp at hmem
  | cons hd rest ih =>
    obtain ⟨p1, l1⟩ := hd
    rw [List.map_cons, List.pairwise_cons] at hnd
    by_cases he : p1 = px
    · subst he
      have hlvl : lvl = l1 := by
        rcases List.mem_cons.mp hmem with h | h
        · simpa using congrArg Prod.snd h
        · exact absurd rfl (hnd.1 p1 (List.mem_map.mpr ⟨(p1, lvl), h, rfl⟩))
      subst hlvl
      simp [findLevel]
    · have hmem' : (px, lvl) ∈ rest := by
        rcases List.mem_cons.mp hmem with h | h
        · injection h with h _; exact absurd h.symm he
        · exact h
      rw [findLevel, List.find?_cons_of_neg _ (by simpa using he)]
      exact ih hnd.2 hmem'

/-- Decomposition of a cancel hit: the side splits around the unique
level at the recorded price, and `cancelInLevels` rewrites exactly that
level (or erases it when it empties). -/
theorem cancelInLevels_eq (ls : List (Int × PriceLevel)) (px i : Int) (lvl : PriceLevel)
    (hnd : List.Pairwise (fun x y : Int => x ≠ y) (ls.map Prod.fst))
    (hmem : (px, lvl) ∈ ls) :
    ∃ L₁ L₂, ls = L₁ ++ (px, lvl) :: L₂ ∧ px ∉ L₁.map Prod.fst ∧ px ∉ L₂.map Prod.fst ∧
      cancelInLevels ls px i = some
        (if (cancelLevel lvl i).orders = [] then L₁ ++ L₂
         else L₁ ++ (px, cancelLevel lvl i) :: L₂) := by
  obtain ⟨L₁, L₂, hsplit⟩ := List.append_of_mem hmem
  subst hsplit
  rw [List.map_append, List.map_cons, List.pairwise_append] at hnd
  obtain ⟨hnd₁, hnd₂, hcross⟩ := hnd
  rw [List.pairwise_cons] at hnd₂
  have hnotin₁ : px ∉ L₁.map Prod.fst := by
    intro hin
    exact hcross px hin px (by simp) rfl
  have hnotin₂ : px ∉ L₂.map Prod.fst := fun hin => hnd₂.1 px hin rfl
  refine ⟨L₁, L₂, rfl, hnotin₁, hnotin₂, ?_⟩
  have hfind : findLevel (L₁ ++ (px, lvl) :: L₂) px = some lvl := by
    apply findLevel_of_mem _ _ _ ?_ (by simp)
    rw [List.map_append, List.map_cons, List.pairwise_append]
    exact ⟨hnd₁, List.pairwise_cons.mpr hnd₂, hcross⟩
  rw [cancelInLevels, hfind]
  dsimp only
  by_cases hempty : (cancelLevel lvl i).orders = []
  · rw [if_pos hempty, if_pos hempty]
    congr 1
    rw [eraseLevel, List.filter_append]
    have h₁ : L₁.filter (fun pl => pl.1 ≠ px) = L₁ := by
      apply List.filter_eq_self.mpr
      intro pl hpl
      simpa using fun hc => hnotin₁ (List.mem_map.mpr ⟨pl, hpl, hc⟩)
    have h₂ : ((px, lvl) :: L₂).filter (fun pl => pl.1 ≠ px) = L₂ := by
      have hrest : L₂.filter (fun pl => pl.1 ≠ px) = L₂ := by
        apply List.filter_eq_self.mpr
        intro pl hpl
        simpa using fun hc => hnotin₂ (List.mem_map.mpr ⟨pl, hpl, hc⟩)
      rw [List.filter_cons, if_neg (by simp)]
      exact hrest
    rw [h₁, h₂]
  · rw [if_neg hempty, if_neg hempty]
    congr 1
    rw [List.map_append, List.map_cons]
    have h₁ : L₁.map (fun pl => if pl.1 = px then (px, cancelLevel lvl i) else pl) = L₁ := by
      have : ∀ pl ∈ L₁,
          (if pl.1 = px then (px, cancelLevel lvl i) else pl) = id pl := by
        intro pl hpl
        rw [if_neg fun hc => hnotin₁ (List.mem_map.mpr ⟨pl, hpl, hc⟩)]
        rfl
      rw [List.map_congr_left this, List.map_id]
    have h₂ : L₂.map (fun pl => if pl.1 = px then (px, cancelLevel lvl i) else pl) = L₂ := by
      have : ∀ pl ∈ L₂,
          (if pl.1 = px then (px, cancelLevel lvl i) else pl) = id pl := by
        intro pl hpl
        rw [if_neg fun hc => hnotin₂ (List.mem_map.mpr ⟨pl, hpl, hc⟩)]
        rfl
      rw [List.map_congr_left this, List.map_id]
    rw [h₁, h₂]
    simp

/-! ## Index lemmas -/

theorem mem_indexErase (idx : List (Int × OrderLocator)) (i : Int)
    (e : Int × OrderLocator) : e ∈ indexErase idx i ↔ e ∈ idx ∧ e.1 ≠ i := by
  simp [indexErase, List.mem_filter]

theorem mem_indexRemoveAll (idx : List (Int × OrderLocator)) (ids : List Int)
    (e : Int × OrderLocator) : e ∈ indexRemoveAll idx ids ↔ e ∈ idx ∧ e.1 ∉ ids := by
  simp [indexRemoveAll, List.mem_filter]

theorem mem_indexInsert (idx : List (Int × OrderLocator)) (i : Int) (loc : OrderLocator)
    (e : Int × OrderLocator) :
    e ∈ indexInsert idx i loc ↔ e = (i, loc) ∨ (e ∈ idx ∧ e.1 ≠ i) := by
  simp [indexInsert, mem_indexErase]

theorem lookupIndex_none (idx : List (Int × OrderLocator)) (i : Int) :
    lookupIndex idx i = none ↔ i ∉ idx.map Prod.fst := by
  rw [lookupIndex, Option.map_eq_none', List.find?_eq_none]
  constructor
  · intro h hin
    obtain ⟨e, he, hfst⟩ := List.mem_map.mp hin
    exact h e he (by simp [hfst])
  · intro h e he hbe
    exact h (List.mem_map.mpr ⟨e, he, by simpa using hbe⟩)

theorem lookupIndex_some_mem (idx : List (Int × OrderLocator)) (i : Int)
    (loc : OrderLocator) (h : lookupIndex idx i = some loc) : (i, loc) ∈ idx := by
  rw [lookupIndex] at h
  obtain ⟨⟨e1, e2⟩, hfind, hsnd⟩ := Option.map_eq_some'.mp h
  have hmem := List.mem_of_find?_eq_some hfind
  have hpred : e1 = i := by simpa using List.find?_some hfind
  subst hpred
  have he2 : e2 = loc := by simpa using hsnd
  subst he2
  exact hmem

/-! ## Invariant preservation -/

theorem Inv_empty : Inv Book.empty := by
  refine ⟨?_, ?_, ?_, ?_, ?_, ?_, ?_, ?_, ?_, ?_⟩ <;>
    simp [Book.empty, bidPrices, askPrices, statsOf]

theorem Inv_bump (b : Book) (hI : Inv b) : Inv { b with next_id := b.next_id + 1 } := by
  refine ⟨hI.bidsSorted, hI.asksSorted, hI.uncrossed, hI.bidsOK, hI.asksOK, ?_,
    hI.locs, ?_, hI.statsEq, hI.snaps⟩
  · intro e he
    have := hI.idsLt e he
    show e.1 < b.next_id + 1
    omega
  · show (1 : Int) ≤ b.next_id + 1
    have := hI.oneId
    omega

theorem Inv_doMatch (b : Book) (o : Order) (hI : Inv b) : Inv (doMatch b o).1 := by
  by_cases hs : o.side = Side.Buy
  · simp only [doMatch, if_pos hs]
    obtain ⟨es1, es2⟩ :=
      emitAll_inv b.stats b.log (matchSide o true b.asks).trades hI.statsEq hI.snaps
    refine ⟨hI.bidsSorted, ?_, ?_, hI.bidsOK, ?_, ?_, ?_, hI.oneId, es1, es2⟩
    · exact List.Pairwise.sublist (matchSide_suffix true o b.asks).sublist hI.asksSorted
    · intro pb hpb pa hpa
      exact hI.uncrossed pb hpb pa ((matchSide_suffix true o b.asks).sublist.subset hpa)
    · exact matchSide_levelOK true o b.asks hI.asksOK
    · intro e he
      exact hI.idsLt e ((mem_indexRemoveAll _ _ e).mp he).1
    · intro e he
      obtain ⟨hmem, hnin⟩ := (mem_indexRemoveAll _ _ e).mp he
      obtain ⟨pl, hpl, hpx, oo, hoo, hooid⟩ := hI.locs e hmem
      by_cases hes : e.2.side = Side.Buy
      · rw [sideLevels, if_pos hes] at hpl
        refine ⟨pl, ?_, hpx, oo, hoo, hooid⟩
        rw [sideLevels, if_pos hes]
        exact hpl
      · rw [sideLevels, if_neg hes] at hpl
        rcases matchSide_present true o b.asks pl hpl oo hoo with hrem | ⟨pl', hpl', hpx', hex⟩
        · rw [hooid] at hrem
          exact absurd hrem hnin
        · refine ⟨pl', ?_, by rw [hpx', hpx], hooid ▸ hex⟩
          rw [sideLevels, if_neg hes]
          exact hpl'
  · simp only [doMatch, if_neg hs]
    obtain ⟨es1, es2⟩ :=
      emitAll_inv b.stats b.log (matchSide o false b.bids).trades hI.statsEq hI.snaps
    refine ⟨?_, hI.asksSorted, ?_, ?_, hI.asksOK, ?_, ?_, hI.oneId, es1, es2⟩
    · exact List.Pairwise.sublist (matchSide_suffix false o b.bids).sublist hI.bidsSorted
    · intro pb hpb pa hpa
      exact hI.uncrossed pb ((matchSide_suffix false o b.bids).sublist.subset hpb) pa hpa
    · exact matchSide_levelOK false o b.bids hI.bidsOK
    · intro e he
      exact hI.idsLt e ((mem_indexRemoveAll _ _ e).mp he).1
    · intro e he
      obtain ⟨hmem, hnin⟩ := (mem_indexRemoveAll _ _ e).mp he
      obtain ⟨pl, hpl, hpx, oo, hoo, hooid⟩ := hI.locs e hmem
      by_cases hes : e.2.side = Side.Buy
      · rw [sideLevels, if_pos hes] at hpl
        rcases matchSide_present false o b.bids pl hpl oo hoo with hrem | ⟨pl', hpl', hpx', hex⟩
        · rw [hooid] at hrem
          exact absurd hrem hnin
        · refine ⟨pl', ?_, by rw [hpx', hpx], hooid ▸ hex⟩
          rw [sideLevels, if_pos hes]
          exact hpl'
      · rw [sideLevels, if_neg hes] at hpl
        refine ⟨pl, ?_, hpx, oo, hoo, hooid⟩
        rw [sideLevels, if_neg hes]
        exact hpl

theorem doMatch_buy (b : Book) (o : Order) (hs : o.side = Side.Buy) :
    doMatch b o =
      ({ b with asks := (matchSide o true b.asks).levels
                index := indexRemoveAll b.index (matchSide o true b.asks).removed
                stats := (emitAll b.stats b.log (matchSide o true b.asks).trades).1
                log := (emitAll b.stats b.log (matchSide o true b.asks).trades).2 },
        (matchSide o true b.asks).leftover) := by
  simp [doMatch, hs]

theorem doMatch_sell (b : Book) (o : Order) (hs : o.side ≠ Side.Buy) :
    doMatch b o =
      ({ b with bids := (matchSide o false b.bids).levels
                index := indexRemoveAll b.index (matchSide o false b.bids).removed
                stats := (emitAll b.stats b.log (matchSide o false b.bids).trades).1
                log := (emitAll b.stats b.log (matchSide o false b.bids).trades).2 },
        (matchSide o false b.bids).leftover) := by
  simp [doMatch, hs]

theorem Inv_addRestingOrder (b : Book) (o : Order) (hI : Inv b) (hq : 0 < o.qty)
    (hid : o.id < b.next_id)
    (hcb : o.side = Side.Buy → ∀ pa ∈ askPrices b, o.price < pa)
    (hcs : o.side ≠ Side.Buy → ∀ pb ∈ bidPrices b, pb < o.price) :
    Inv (addRestingOrder b o) := by
  by_cases hs : o.side = Side.Buy
  · simp only [addRestingOrder, if_pos hs]
    have hcmp : ∀ x y : Int, bidBefore x y = true ↔ y < x := by
      intro x y; simp [bidBefore]
    refine ⟨?_, hI.asksSorted, ?_, ?_, hI.asksOK, ?_, ?_, hI.oneId, hI.statsEq, hI.snaps⟩
    · exact insertOrder_pairwise bidBefore (fun x y => y < x) hcmp
        (fun x y => by omega) (fun a b c hab hbc => by omega) o b.bids hI.bidsSorted
    · intro pb hpb pa hpa
      rcases insertOrder_price_mem bidBefore o b.bids pb hpb with h | h
      · exact hI.uncrossed pb h pa hpa
      · subst h; exact hcb hs pa hpa
    · exact insertOrder_levelOK bidBefore o b.bids hI.bidsOK hq
    · intro e he
      rcases (mem_indexInsert _ _ _ e).mp he with h | ⟨h, _⟩
      · subst h; exact hid
      · exact hI.idsLt e h
    · intro e he
      rcases (mem_indexInsert _ _ _ e).mp he with h | ⟨h, _⟩
      · subst h
        obtain ⟨pl, hpl, hpx, hmem, _⟩ := insertOrder_tail bidBefore o b.bids
        refine ⟨pl, ?_, ?_, o, hmem, rfl⟩
        · show pl ∈ sideLevels _ o.side
          rw [sideLevels, if_pos hs]
          exact hpl
        · exact hpx
      · obtain ⟨pl, hpl, hpx, oo, hoo, hooid⟩ := hI.locs e h
        by_cases hes : e.2.side = Side.Buy
        · rw [sideLevels, if_pos hes] at hpl
          obtain ⟨pl', hpl', hpx', hex⟩ :=
            insertOrder_present bidBefore o b.bids e.2.price e.1 ⟨pl, hpl, hpx, oo, hoo, hooid⟩
          refine ⟨pl', ?_, hpx', hex⟩
          rw [sideLevels, if_pos hes]
          exact hpl'
        · rw [sideLevels, if_neg hes] at hpl
          refine ⟨pl, ?_, hpx, oo, hoo, hooid⟩
          rw [sideLevels, if_neg hes]
          exact hpl
  · simp only [addRestingOrder, if_neg hs]
    have hcmp : ∀ x y : Int, askBefore x y = true ↔ x < y := by
      intro x y; simp [askBefore]
    refine ⟨hI.bidsSorted, ?_, ?_, hI.bidsOK, ?_, ?_, ?_, hI.oneId, hI.statsEq, hI.snaps⟩
    · exact insertOrder_pairwise askBefore (fun x y => x < y) hcmp
        (fun x y => by omega) (fun a b c hab hbc => by omega) o b.asks hI.asksSorted
    · intro pb hpb pa hpa
      rcases insertOrder_price_mem askBefore o b.asks pa hpa with h | h
      · exact hI.uncrossed pb hpb pa h
      · subst h; exact hcs hs pb hpb
    · exact insertOrder_levelOK askBefore o b.asks hI.asksOK hq
    · intro e he
      rcases (mem_indexInsert _ _ _ e).mp he with h | ⟨h, _⟩
      · subst h; exact hid
      · exact hI.idsLt e h
    · intro e he
      rcases (mem_indexInsert _ _ _ e).mp he with h | ⟨h, _⟩
      · subst h
        obtain ⟨pl, hpl, hpx, hmem, _⟩ := insertOrder_tail askBefore o b.asks
        refine ⟨pl, ?_, ?_, o, hmem, rfl⟩
        · show pl ∈ sideLevels _ o.side
          rw [sideLevels, if_neg hs]
          exact hpl
        · exact hpx
      · obtain ⟨pl, hpl, hpx, oo, hoo, hooid⟩ := hI.locs e h
        by_cases hes : e.2.side = Side.Buy
        · rw [sideLevels, if_pos hes] at hpl
          refine ⟨pl, ?_, hpx, oo, hoo, hooid⟩
          rw [sideLevels, if_pos hes]
          exact hpl
        · rw [sideLevels, if_neg hes] at hpl
          obtain ⟨pl', hpl', hpx', hex⟩ :=
            insertOrder_present askBefore o b.asks e.2.price e.1 ⟨pl, hpl, hpx, oo, hoo, hooid⟩
          refine ⟨pl', ?_, hpx', hex⟩
          rw [sideLevels, if_neg hes]
          exact hpl'

/-- Full characterisation of a successful `cancelInLevels` hit on a
well-formed sorted side: the cancelled order is removed (and only it),
the erased qty is its remaining qty, every level stays well-formed and
every other order survives at its price. -/
theorem cancelInLevels_result (R : Int → Int → Prop) (ls : List (Int × PriceLevel))
    (px i : Int) (hpw : List.Pairwise R (ls.map Prod.fst))
    (hRne : ∀ x y, R x y → x ≠ y)
    (hOK : ∀ pl ∈ ls, LevelOK pl)
    (lvl : PriceLevel) (hmem : (px, lvl) ∈ ls)
    (o₀ : Order) (ho₀ : o₀ ∈ lvl.orders) (hid₀ : o₀.id = i) :
    ∃ ls' o', cancelInLevels ls px i = some ls' ∧
      o' ∈ lvl.orders ∧ o'.id = i ∧
      (∀ pl ∈ ls', LevelOK pl) ∧
      List.Pairwise R (ls'.map Prod.fst) ∧
      (∀ p' ∈ ls'.map Prod.fst, p' ∈ ls.map Prod.fst) ∧
      (ordersOf ls').length + 1 = (ordersOf ls).length ∧
      sumQ (ordersOf ls') + o'.qty = sumQ (ordersOf ls) ∧
      (∀ pl_e ∈ ls, ∀ oo ∈ pl_e.2.orders, oo.id ≠ i →
        ∃ pl' ∈ ls', pl'.1 = pl_e.1 ∧ ∃ oo' ∈ pl'.2.orders, oo'.id = oo.id) := by
  have hnd : List.Pairwise (fun x y : Int => x ≠ y) (ls.map Prod.fst) :=
    hpw.imp fun {x y} h => hRne x y h
  obtain ⟨L₁, L₂, hsplit, hn₁, hn₂, heq⟩ := cancelInLevels_eq ls px i lvl hnd hmem
  have hfex : (lvl.orders.find? (fun o => o.id == i)).isSome :=
    List.find?_isSome.mpr ⟨o₀, ho₀, by simp [hid₀]⟩
  obtain ⟨o', hfind⟩ := Option.isSome_iff_exists.mp hfex
  have ho'mem : o' ∈ lvl.orders := List.mem_of_find?_eq_some hfind
  have ho'id : o'.id = i := by simpa using List.find?_some hfind
  have hOKlvl := hOK (px, lvl) hmem
  have hpos : 0 < o'.qty := hOKlvl.2.2 o' ho'mem
  have hcl : cancelLevel lvl i =
      ⟨lvl.total_qty - o'.qty, lvl.orders.eraseP (fun o => o.id == i)⟩ := by
    simp only [cancelLevel, hfind]
    rw [if_pos hpos]
  have hord : ordersOf ls = ordersOf L₁ ++ (lvl.orders ++ ordersOf L₂) := by
    rw [hsplit, ordersOf_append, ordersOf_cons]
  have hsumE : sumQ (lvl.orders.eraseP (fun o => o.id == i)) = sumQ lvl.orders - o'.qty :=
    find_eraseP_sumQ i lvl.orders o' hfind
  have hlenE : (lvl.orders.eraseP (fun o => o.id == i)).length + 1 = lvl.orders.length :=
    find_eraseP_len i lvl.orders o' hfind
  by_cases hemp : (cancelLevel lvl i).orders = []
  · have herase : lvl.orders.eraseP (fun o => o.id == i) = [] := by
      rw [hcl] at hemp
      exact hemp
    have hsingle : lvl.orders = [o'] := eraseP_nil_singleton i lvl.orders o' hfind herase
    refine ⟨L₁ ++ L₂, o', by rw [heq, if_pos hemp], ho'mem, ho'id, ?_, ?_, ?_, ?_, ?_, ?_⟩
    · intro pl hpl
      apply hOK
      rw [hsplit]
      rcases List.mem_append.mp hpl with h | h
      · exact List.mem_append_left _ h
      · exact List.mem_append_right _ (List.mem_cons_of_mem _ h)
    · have hsub : List.Sublist ((L₁ ++ L₂).map Prod.fst) (ls.map Prod.fst) := by
        rw [hsplit]
        exact ((List.sublist_cons_self _ _).append_left L₁).map Prod.fst
      exact List.Pairwise.sublist hsub hpw
    · intro p' hp'
      have hsub : List.Sublist ((L₁ ++ L₂).map Prod.fst) (ls.map Prod.fst) := by
        rw [hsplit]
        exact ((List.sublist_cons_self _ _).append_left L₁).map Prod.fst
      exact hsub.subset hp'
    · rw [hord, ordersOf_append, hsingle]
      simp only [List.length_append, List.length_cons, List.length_nil]
      omega
    · rw [hord, ordersOf_append, hsingle, sumQ_append, sumQ_append, sumQ_append,
        sumQ_cons, sumQ_nil]
      ring
    · intro pl_e hpl_e oo hoo hne
      rw [hsplit] at hpl_e
      rcases List.mem_append.mp hpl_e with h | h
      · exact ⟨pl_e, List.mem_append_left _ h, rfl, oo, hoo, rfl⟩
      · rcases List.mem_cons.mp h with h | h
        · subst h
          rw [hsingle] at hoo
          simp at hoo
          subst hoo
          exact absurd ho'id hne
        · exact ⟨pl_e, List.mem_append_right _ h, rfl, oo, hoo, rfl⟩
  · have hpeq : (L₁ ++ (px, cancelLevel lvl i) :: L₂).map Prod.fst = ls.map Prod.fst := by
      rw [hsplit]
      simp
    have hordk : ordersOf (L₁ ++ (px, cancelLevel lvl i) :: L₂) =
        ordersOf L₁ ++ (lvl.orders.eraseP (fun o => o.id == i) ++ ordersOf L₂) := by
      rw [ordersOf_append, ordersOf_cons, hcl]
    refine ⟨L₁ ++ (px, cancelLevel lvl i) :: L₂, o', by rw [heq, if_neg hemp],
      ho'mem, ho'id, ?_, ?_, ?_, ?_, ?_, ?_⟩
    · intro pl hpl
      rcases List.mem_append.mp hpl with h | h
      · exact hOK pl (by rw [hsplit]; exact List.mem_append_left _ h)
      · rcases List.mem_cons.mp h with h | h
        · subst h
          refine ⟨hemp, ?_, ?_⟩
          · show (cancelLevel lvl i).total_qty = sumQ (cancelLevel lvl i).orders
            rw [hcl]
            show lvl.total_qty - o'.qty = sumQ (lvl.orders.eraseP (fun o => o.id == i))
            rw [hsumE, hOKlvl.2.1]
          · intro x hx
            show 0 < x.qty
            rw [hcl] at hx
            exact hOKlvl.2.2 x ((List.eraseP_sublist _).subset hx)
        · exact hOK pl
            (by rw [hsplit]; exact List.mem_append_right _ (List.mem_cons_of_mem _ h))
    · rw [hpeq]
      exact hpw
    · intro p' hp'
      rw [hpeq] at hp'
      exact hp'
    · rw [hordk, hord]
      simp only [List.length_append]
      omega
    · rw [hordk, hord, sumQ_append, sumQ_append, sumQ_append, sumQ_append, hsumE]
      ring
    · intro pl_e hpl_e oo hoo hne
      rw [hsplit] at hpl_e
      rcases List.mem_append.mp hpl_e with h | h
      · exact ⟨pl_e, List.mem_append_left _ h, rfl, oo, hoo, rfl⟩
      · rcases List.mem_cons.mp h with h | h
        · subst h
          refine ⟨(px, cancelLevel lvl i), List.mem_append_right _ (by simp), rfl, oo, ?_, rfl⟩
          rw [hcl]
          exact mem_eraseP_of_ne i lvl.orders oo hoo hne
        · exact ⟨pl_e, List.mem_append_right _ (List.mem_cons_of_mem _ h), rfl, oo, hoo, rfl⟩

theorem cancel_none (b : Book) (i : Int) (h : lookupIndex b.index i = none) :
    cancel b i = (b, false) := by
  rw [cancel, h]

theorem cancel_buy_some (b : Book) (i : Int) (loc : OrderLocator)
    (hl : lookupIndex b.index i = some loc) (hs : loc.side = Side.Buy)
    (ls' : List (Int × PriceLevel)) (hc : cancelInLevels b.bids loc.price i = some ls') :
    cancel b i = ({ b with bids := ls', index := indexErase b.index i }, true) := by
  rw [cancel, hl]
  dsimp only
  rw [if_pos hs, hc]

theorem cancel_sell_some (b : Book) (i : Int) (loc : OrderLocator)
    (hl : lookupIndex b.index i = some loc) (hs : ¬ loc.side = Side.Buy)
    (ls' : List (Int × PriceLevel)) (hc : cancelInLevels b.asks loc.price i = some ls') :
    cancel b i = ({ b with asks := ls', index := indexErase b.index i }, true) := by
  rw [cancel, hl]
  dsimp only
  rw [if_neg hs, hc]

theorem cancel_buy_stale (b : Book) (i : Int) (loc : OrderLocator)
    (hl : lookupIndex b.index i = some loc) (hs : loc.side = Side.Buy)
    (hc : cancelInLevels b.bids loc.price i = none) :
    cancel b i = ({ b with index := indexErase b.index i }, false) := by
  rw [cancel, hl]
  dsimp only
  rw [if_pos hs, hc]

theorem cancel_sell_stale (b : Book) (i : Int) (loc : OrderLocator)
    (hl : lookupIndex b.index i = some loc) (hs : ¬ loc.side = Side.Buy)
    (hc : cancelInLevels b.asks loc.price i = none) :
    cancel b i = ({ b with index := indexErase b.index i }, false) := by
  rw [cancel, hl]
  dsimp only
  rw [if_neg hs, hc]

theorem Inv_indexErase (b : Book) (i : Int) (hI : Inv b) :
    Inv { b with index := indexErase b.index i } := by
  refine ⟨hI.bidsSorted, hI.asksSorted, hI.uncrossed, hI.bidsOK, hI.asksOK, ?_, ?_,
    hI.oneId, hI.statsEq, hI.snaps⟩
  · intro e he
    exact hI.idsLt e ((mem_indexErase _ _ e).mp he).1
  · intro e he
    exact hI.locs e ((mem_indexErase _ _ e).mp he).1

theorem Inv_cancel (b : Book) (i : Int) (hI : Inv b) : Inv (cancel b i).1 := by
  cases hl : lookupIndex b.index i with
  | none => rw [cancel_none b i hl]; exact hI
  | some loc =>
    have hmem := lookupIndex_some_mem _ _ _ hl
    obtain ⟨⟨plp, plv⟩, hpl, hpx, o₀, ho₀, hid₀⟩ := hI.locs (i, loc) hmem
    have hpx' : plp = loc.price := by simpa using hpx
    subst hpx'
    by_cases hs : loc.side = Side.Buy
    · have hplm : (loc.price, plv) ∈ b.bids := by
        simp only [sideLevels] at hpl
        rwa [if_pos hs] at hpl
      obtain ⟨ls', o', hceq, ho'mem, ho'id, hOK', hpw', hsub', hlen', hsum', hpres'⟩ :=
        cancelInLevels_result (pOrd false) b.bids loc.price i hI.bidsSorted
          (fun x y h => pOrd_ne false x y h) hI.bidsOK plv hplm o₀ ho₀ hid₀
      rw [cancel_buy_some b i loc hl hs ls' hceq]
      refine ⟨hpw', hI.asksSorted, ?_, hOK', hI.asksOK, ?_, ?_, hI.oneId,
        hI.statsEq, hI.snaps⟩
      · intro pb hpb pa hpa
        exact hI.uncrossed pb (hsub' pb hpb) pa hpa
      · intro e he
        exact hI.idsLt e ((mem_indexErase _ _ e).mp he).1
      · intro e he
        obtain ⟨hemem, hene⟩ := (mem_indexErase _ _ e).mp he
        obtain ⟨pl_e, hpl_e, hpx_e, oo, hoo, hooid⟩ := hI.locs e hemem
        by_cases hes : e.2.side = Side.Buy
        · have hpl_e2 : pl_e ∈ b.bids := by
            simp only [sideLevels] at hpl_e
            rwa [if_pos hes] at hpl_e
          obtain ⟨pl', hpl', hpx'', oo', hoo', hoid'⟩ :=
            hpres' pl_e hpl_e2 oo hoo (by rw [hooid]; exact hene)
          refine ⟨pl', ?_, by rw [hpx'', hpx_e], oo', hoo', by rw [hoid', hooid]⟩
          show pl' ∈ sideLevels _ e.2.side
          rw [sideLevels, if_pos hes]
          exact hpl'
        · have hpl_e2 : pl_e ∈ b.asks := by
            simp only [sideLevels] at hpl_e
            rwa [if_neg hes] at hpl_e
          refine ⟨pl_e, ?_, hpx_e, oo, hoo, hooid⟩
          show pl_e ∈ sideLevels _ e.2.side
          rw [sideLevels, if_neg hes]
          exact hpl_e2
    · have hplm : (loc.price, plv) ∈ b.asks := by
        simp only [sideLevels] at hpl
        rwa [if_neg hs] at hpl
      obtain ⟨ls', o', hceq, ho'mem, ho'id, hOK', hpw', hsub', hlen', hsum', hpres'⟩ :=
        cancelInLevels_result (pOrd true) b.asks loc.price i hI.asksSorted
          (fun x y h => pOrd_ne true x y h) hI.asksOK plv hplm o₀ ho₀ hid₀
      rw [cancel_sell_some b i loc hl hs ls' hceq]
      refine ⟨hI.bidsSorted, hpw', ?_, hI.bidsOK, hOK', ?_, ?_, hI.oneId,
        hI.statsEq, hI.snaps⟩
      · intro pb hpb pa hpa
        exact hI.uncrossed pb hpb pa (hsub' pa hpa)
      · intro e he
        exact hI.idsLt e ((mem_indexErase _ _ e).mp he).1
      · intro e he
        obtain ⟨hemem, hene⟩ := (mem_indexErase _ _ e).mp he
        obtain ⟨pl_e, hpl_e, hpx_e, oo, hoo, hooid⟩ := hI.locs e hemem
        by_cases hes : e.2.side = Side.Buy
        · have hpl_e2 : pl_e ∈ b.bids := by
            simp only [sideLevels] at hpl_e
            rwa [if_pos hes] at hpl_e
          refine ⟨pl_e, ?_, hpx_e, oo, hoo, hooid⟩
          show pl_e ∈ sideLevels _ e.2.side
          rw [sideLevels, if_pos hes]
          exact hpl_e2
        · have hpl_e2 : pl_e ∈ b.asks := by
            simp only [sideLevels] at hpl_e
            rwa [if_neg hes] at hpl_e
          obtain ⟨pl', hpl', hpx'', oo', hoo', hoid'⟩ :=
            hpres' pl_e hpl_e2 oo hoo (by rw [hooid]; exact hene)
          refine ⟨pl', ?_, by rw [hpx'', hpx_e], oo', hoo', by rw [hoid', hooid]⟩
          show pl' ∈ sideLevels _ e.2.side
          rw [sideLevels, if_neg hes]
          exact hpl'

theorem doMatch_next (b : Book) (o : Order) : (doMatch b o).1.next_id = b.next_id := by
  by_cases hs : o.side = Side.Buy
  · rw [doMatch_buy b o hs]
  · rw [doMatch_sell b o hs]

theorem addLimit_fok_reject (b : Book) (s : Side) (p q : Int) (tif : TimeInForce)
    (h : tif = TimeInForce.FOK ∧
      canFullyMatch { b with next_id := b.next_id + 1 } s p q = false) :
    addLimit b s p q tif = ({ b with next_id := b.next_id + 1 }, b.next_id) := by
  simp only [addLimit, if_pos h]

theorem addLimit_rest (b : Book) (s : Side) (p q : Int) (tif : TimeInForce)
    (hneg : ¬ (tif = TimeInForce.FOK ∧
      canFullyMatch { b with next_id := b.next_id + 1 } s p q = false))
    (hrest : 0 < (doMatch { b with next_id := b.next_id + 1 }
        ⟨b.next_id, p, q, s, OrderType.Limit, tif⟩).2 ∧ tif = TimeInForce.GFD) :
    addLimit b s p q tif =
      (addRestingOrder
        (doMatch { b with next_id := b.next_id + 1 }
          ⟨b.next_id, p, q, s, OrderType.Limit, tif⟩).1
        { (⟨b.next_id, p, q, s, OrderType.Limit, tif⟩ : Order) with
            qty := (doMatch { b with next_id := b.next_id + 1 }
              ⟨b.next_id, p, q, s, OrderType.Limit, tif⟩).2 },
        b.next_id) := by
  simp only [addLimit, if_neg hneg, if_pos hrest]

theorem addLimit_norest (b : Book) (s : Side) (p q : Int) (tif : TimeInForce)
    (hneg : ¬ (tif = TimeInForce.FOK ∧
      canFullyMatch { b with next_id := b.next_id + 1 } s p q = false))
    (hnr : ¬ (0 < (doMatch { b with next_id := b.next_id + 1 }
        ⟨b.next_id, p, q, s, OrderType.Limit, tif⟩).2 ∧ tif = TimeInForce.GFD)) :
    addLimit b s p q tif =
      ((doMatch { b with next_id := b.next_id + 1 }
        ⟨b.next_id, p, q, s, OrderType.Limit, tif⟩).1, b.next_id) := by
  simp only [addLimit, if_neg hneg, if_neg hnr]

theorem Inv_addLimit (b : Book) (s : Side) (p q : Int) (tif : TimeInForce)
    (hI : Inv b) : Inv (addLimit b s p q tif).1 := by
  by_cases hfok : tif = TimeInForce.FOK ∧
      canFullyMatch { b with next_id := b.next_id + 1 } s p q = false
  · rw [addLimit_fok_reject b s p q tif hfok]
    exact Inv_bump b hI
  · by_cases hrest : 0 < (doMatch { b with next_id := b.next_id + 1 }
        ⟨b.next_id, p, q, s, OrderType.Limit, tif⟩).2 ∧ tif = TimeInForce.GFD
    · rw [addLimit_rest b s p q tif hfok hrest]
      have hI1 : Inv (doMatch { b with next_id := b.next_id + 1 }
          ⟨b.next_id, p, q, s, OrderType.Limit, tif⟩).1 :=
        Inv_doMatch _ _ (Inv_bump b hI)
      apply Inv_addRestingOrder _ _ hI1
      · exact hrest.1
      · rw [doMatch_next]
        show b.next_id < b.next_id + 1
        omega
      · intro hside pa hpa
        have hs : s = Side.Buy := hside
        subst hs
        rw [doMatch_buy _ _ rfl] at hpa hrest ⊢
        have hbrk := matchSide_break true ⟨b.next_id, p, q, Side.Buy, OrderType.Limit, tif⟩
          b.asks rfl hI.asksSorted hrest.1
        exact hbrk pa (by simpa [askPrices] using hpa)
      · intro hside pb hpb
        have hs : ¬ s = Side.Buy := hside
        rw [doMatch_sell _ _ hs] at hpb hrest ⊢
        have hbrk := matchSide_break false ⟨b.next_id, p, q, s, OrderType.Limit, tif⟩
          b.bids rfl hI.bidsSorted hrest.1
        exact hbrk pb (by simpa [bidPrices] using hpb)
    · rw [addLimit_norest b s p q tif hfok hrest]
      exact Inv_doMatch _ _ (Inv_bump b hI)

theorem Inv_addMarket (b : Book) (s : Side) (q : Int) (hI : Inv b) :
    Inv (addMarket b s q).1 := by
  simp only [addMarket]
  exact Inv_doMatch _ _ (Inv_bump b hI)

theorem Inv_step {b b' : Book} (h : Step b b') (hI : Inv b) : Inv b' := by
  cases h with
  | limit s p q tif => exact Inv_addLimit b s p q tif hI
  | market s q => exact Inv_addMarket b s q hI
  | cancelStep i => exact Inv_cancel b i hI

theorem Reachable_inv {b : Book} (h : Reachable b) : Inv b := by
  induction h with
  | refl => exact Inv_empty
  | tail _ hstep ih => exact Inv_step hstep ih

/-! ## Small operation-level lemmas -/

theorem indexRemoveAll_nil (idx : List (Int × OrderLocator)) :
    indexRemoveAll idx [] = idx := by
  simp [indexRemoveAll]

theorem emitAll_nil (st : BookStats) (lg : List (Trade × BookStats)) :
    emitAll st lg [] = (st, lg) := rfl

theorem doMatch_nonpos (b : Book) (o : Order) (hq : ¬ 0 < o.qty) :
    doMatch b o = (b, o.qty) := by
  by_cases hs : o.side = Side.Buy
  · rw [doMatch_buy b o hs, matchSide_of_nonpos o true b.asks hq]
    simp [indexRemoveAll_nil, emitAll_nil]
  · rw [doMatch_sell b o hs, matchSide_of_nonpos o false b.bids hq]
    simp [indexRemoveAll_nil, emitAll_nil]

theorem addMarket_eq (b : Book) (s : Side) (q : Int) :
    addMarket b s q =
      ((doMatch { b with next_id := b.next_id + 1 }
        ⟨b.next_id, marketPx s, q, s,
          OrderType.Market, TimeInForce.IOC⟩).1, b.next_id) := by
  simp only [addMarket]

theorem addRestingOrder_log (b : Book) (o : Order) :
    (addRestingOrder b o).log = b.log := by
  by_cases hs : o.side = Side.Buy <;> simp [addRestingOrder, hs]

theorem addRestingOrder_next (b : Book) (o : Order) :
    (addRestingOrder b o).next_id = b.next_id := by
  by_cases hs : o.side = Side.Buy <;> simp [addRestingOrder, hs]

theorem addLimit_next (b : Book) (s : Side) (p q : Int) (tif : TimeInForce) :
    (addLimit b s p q tif).1.next_id = b.next_id + 1 := by
  by_cases hfok : tif = TimeInForce.FOK ∧
      canFullyMatch { b with next_id := b.next_id + 1 } s p q = false
  · rw [addLimit_fok_reject b s p q tif hfok]
  · by_cases hrest : 0 < (doMatch { b with next_id := b.next_id + 1 }
        ⟨b.next_id, p, q, s, OrderType.Limit, tif⟩).2 ∧ tif = TimeInForce.GFD
    · rw [addLimit_rest b s p q tif hfok hrest]
      show (addRestingOrder _ _).next_id = _
      rw [addRestingOrder_next, doMatch_next]
    · rw [addLimit_norest b s p q tif hfok hrest]
      show (doMatch _ _).1.next_id = _
      rw [doMatch_next]

theorem addLimit_snd (b : Book) (s : Side) (p q : Int) (tif : TimeInForce) :
    (addLimit b s p q tif).2 = b.next_id := by
  by_cases hfok : tif = TimeInForce.FOK ∧
      canFullyMatch { b with next_id := b.next_id + 1 } s p q = false
  · rw [addLimit_fok_reject b s p q tif hfok]
  · by_cases hrest : 0 < (doMatch { b with next_id := b.next_id + 1 }
        ⟨b.next_id, p, q, s, OrderType.Limit, tif⟩).2 ∧ tif = TimeInForce.GFD
    · rw [addLimit_rest b s p q tif hfok hrest]
    · rw [addLimit_norest b s p q tif hfok hrest]

theorem cancel_next (b : Book) (i : Int) : (cancel b i).1.next_id = b.next_id := by
  cases hl : lookupIndex b.index i with
  | none => rw [cancel_none b i hl]
  | some loc =>
    by_cases hs : loc.side = Side.Buy
    · cases hc : cancelInLevels b.bids loc.price i with
      | none => rw [cancel_buy_stale b i loc hl hs hc]
      | some ls' => rw [cancel_buy_some b i loc hl hs ls' hc]
    · cases hc : cancelInLevels b.asks loc.price i with
      | none => rw [cancel_sell_stale b i loc hl hs hc]
      | some ls' => rw [cancel_sell_some b i loc hl hs ls' hc]

theorem cancel_stats (b : Book) (i : Int) :
    (cancel b i).1.stats = b.stats ∧ (cancel b i).1.log = b.log := by
  cases hl : lookupIndex b.index i with
  | none => rw [cancel_none b i hl]; exact ⟨rfl, rfl⟩
  | some loc =>
    by_cases hs : loc.side = Side.Buy
    · cases hc : cancelInLevels b.bids loc.price i with
      | none => rw [cancel_buy_stale b i loc hl hs hc]; exact ⟨rfl, rfl⟩
      | some ls' => rw [cancel_buy_some b i loc hl hs ls' hc]; exact ⟨rfl, rfl⟩
    · cases hc : cancelInLevels b.asks loc.price i with
      | none => rw [cancel_sell_stale b i loc hl hs hc]; exact ⟨rfl, rfl⟩
      | some ls' => rw [cancel_sell_some b i loc hl hs ls' hc]; exact ⟨rfl, rfl⟩

theorem mem_indexIds_of_erase {idx : List (Int × OrderLocator)} {i j : Int}
    (h : j ∈ (indexErase idx i).map Prod.fst) : j ∈ idx.map Prod.fst ∧ j ≠ i := by
  obtain ⟨e, he, hj⟩ := List.mem_map.mp h
  obtain ⟨hm, hne⟩ := (mem_indexErase _ _ e).mp he
  exact ⟨List.mem_map.mpr ⟨e, hm, hj⟩, hj ▸ hne⟩

/-- Cancelling an id always leaves it absent from the index. -/
theorem cancel_rm (b : Book) (i : Int) : i ∉ indexIds (cancel b i).1 := by
  cases hl : lookupIndex b.index i with
  | none =>
    rw [cancel_none b i hl]
    exact (lookupIndex_none _ _).mp hl
  | some loc =>
    have hgoal : ∀ X : Book, X.index = indexErase b.index i → i ∉ indexIds X := by
      intro X hX hmem
      rw [indexIds, hX] at hmem
      exact (mem_indexIds_of_erase hmem).2 rfl
    by_cases hs : loc.side = Side.Buy
    · cases hc : cancelInLevels b.bids loc.price i with
      | none => rw [cancel_buy_stale b i loc hl hs hc]; exact hgoal _ rfl
      | some ls' => rw [cancel_buy_some b i loc hl hs ls' hc]; exact hgoal _ rfl
    · cases hc : cancelInLevels b.asks loc.price i with
      | none => rw [cancel_sell_stale b i loc hl hs hc]; exact hgoal _ rfl
      | some ls' => rw [cancel_sell_some b i loc hl hs ls' hc]; exact hgoal _ rfl

theorem newTrades_self (b b' : Book) (h : b'.log = b.log) : newTrades b b' = [] := by
  rw [newTrades, h, List.drop_length]
  rfl

/-- The trades recorded by one `doMatch` (read back from the ghost log)
are exactly the sweep's trades. -/
theorem newTrades_doMatch (b : Book) (o : Order) (b0 : Book) (hlog : b.log = b0.log) :
    newTrades b0 (doMatch b o).1 =
      (matchSide o (sideIsBuy o.side) (oppLevels b o.side)).trades := by
  by_cases hs : o.side = Side.Buy
  · rw [doMatch_buy b o hs]
    show ((emitAll b.stats b.log _).2.drop b0.log.length).map Prod.fst = _
    rw [← hlog, emitAll_log_drop]
    rw [hs]
    rfl
  · rw [doMatch_sell b o hs]
    show ((emitAll b.stats b.log _).2.drop b0.log.length).map Prod.fst = _
    rw [← hlog, emitAll_log_drop]
    have hsell : o.side = Side.Sell := by
      cases hside : o.side
      · exact absurd hside hs
      · rfl
    rw [hsell]
    rfl

theorem indexIds_removeAll_sub (b : Book) (ids : List Int)
    (j : Int) (h : j ∈ (indexRemoveAll b.index ids).map Prod.fst) : j ∈ indexIds b := by
  obtain ⟨e, he, hj⟩ := List.mem_map.mp h
  exact List.mem_map.mpr ⟨e, ((mem_indexRemoveAll _ _ e).mp he).1, hj⟩

theorem ordersOf_mem (ls : List (Int × PriceLevel)) (pl : Int × PriceLevel)
    (hpl : pl ∈ ls) (oo : Order) (hoo : oo ∈ pl.2.orders) : oo ∈ ordersOf ls := by
  induction ls with
  | nil => simp at hpl
  | cons hd rest ih =>
    rw [ordersOf_cons]
    rcases List.mem_cons.mp hpl with h | h
    · subst h; exact List.mem_append_left _ hoo
    · exact List.mem_append_right _ (ih h)

theorem PriorityOK_nil (b : Book) (s : Side) : PriorityOK b s [] := by
  refine ⟨by simp, by simp, fun pl _ => ⟨0, by simp⟩⟩

/-- A market order and an extreme-priced limit order with the same id
and qty produce identical sweeps, provided no level price beats the
limit price. -/
theorem matchSide_market_eq_limit (ib : Bool) (i PM PL q : Int) (s : Side)
    (tfM tfL : TimeInForce) (ls : List (Int × PriceLevel)) :
    (∀ px ∈ ls.map Prod.fst, ¬ (if ib then PL < px else px < PL)) →
    matchSide ⟨i, PM, q, s, OrderType.Market, tfM⟩ ib ls =
      matchSide ⟨i, PL, q, s, OrderType.Limit, tfL⟩ ib ls := by
  induction ls generalizing q with
  | nil => intro _; rfl
  | cons hd rest ih =>
    intro hP
    obtain ⟨px, lvl⟩ := hd
    have hPrest : ∀ px' ∈ rest.map Prod.fst, ¬ (if ib then PL < px' else px' < PL) := by
      intro px' h'
      exact hP px' (by rw [List.map_cons]; exact List.mem_cons_of_mem _ h')
    by_cases hq : 0 < q
    · have hbM : ¬((⟨i, PM, q, s, OrderType.Market, tfM⟩ : Order).type = OrderType.Limit ∧
          (if ib then (⟨i, PM, q, s, OrderType.Market, tfM⟩ : Order).price < px
           else px < (⟨i, PM, q, s, OrderType.Market, tfM⟩ : Order).price)) := by
        rintro ⟨h, _⟩
        exact OrderType.noConfusion h
      have hcondL : ¬ (True ∧ if ib = true then PL < px else px < PL) := by
        rintro ⟨_, h⟩
        exact hP px (by simp) h
      simp only [matchSide, if_pos hq, if_neg hbM, if_neg hcondL]
      by_cases hf : (matchFIFO px i ib q lvl.orders).fifo = []
      · simp only [if_pos hf]
        rw [ih ((matchFIFO px i ib q lvl.orders).q) hPrest]
      · simp only [if_neg hf]
    · simp only [matchSide, if_neg hq]

theorem crossSum_buy (b : Book) (p : Int) :
    crossSum b Side.Buy p = crossQtyL true p b.asks := by
  simp [crossSum, crossQtyL]

theorem crossSum_sell (b : Book) (p : Int) :
    crossSum b Side.Sell p = crossQtyL false p b.bids := by
  simp [crossSum, crossQtyL]

/-! ## Claim theorems -/

/-- C10: `addLimit` and `addMarket` with non-positive qty emit no
trades, change no book state, and still consume one fresh id. -/
theorem C10_nonpositive_qty (b : Book) (s : Side) (p q : Int) (tif : TimeInForce)
    (hq : q ≤ 0) :
    addLimit b s p q tif = ({ b with next_id := b.next_id + 1 }, b.next_id) ∧
    addMarket b s q = ({ b with next_id := b.next_id + 1 }, b.next_id) := by
  have hcan : canFullyMatch { b with next_id := b.next_id + 1 } s p q = true := by
    rw [canFullyMatch, if_pos hq]
  have hneg : ¬ (tif = TimeInForce.FOK ∧
      canFullyMatch { b with next_id := b.next_id + 1 } s p q = false) := by
    rintro ⟨_, hc⟩
    rw [hcan] at hc
    exact absurd hc (by simp)
  constructor
  · have hdm : doMatch { b with next_id := b.next_id + 1 }
        (⟨b.next_id, p, q, s, OrderType.Limit, tif⟩ : Order) =
        ({ b with next_id := b.next_id + 1 }, q) :=
      doMatch_nonpos _ _ (by dsimp only; omega)
    have hnr : ¬ (0 < (doMatch { b with next_id := b.next_id + 1 }
        ⟨b.next_id, p, q, s, OrderType.Limit, tif⟩).2 ∧ tif = TimeInForce.GFD) := by
      rintro ⟨h1, _⟩
      rw [hdm] at h1
      dsimp only at h1
      omega
    rw [addLimit_norest b s p q tif hneg hnr, hdm]
  · have hdm : doMatch { b with next_id := b.next_id + 1 }
        (⟨b.next_id, marketPx s, q, s, OrderType.Market, TimeInForce.IOC⟩ : Order) =
        ({ b with next_id := b.next_id + 1 }, q) :=
      doMatch_nonpos _ _ (by dsimp only; omega)
    rw [addMarket_eq, hdm]

/-- C9: a market order behaves exactly like an aggressive IOC limit at
the extreme machine price (given every resting price fits in i64, which
the C++ `Price` type guarantees); it never rests: the index gains no
entry and the order's own side is untouched. -/
theorem C9_market_equiv (b : Book) (s : Side) (q : Int)
    (hb : ∀ px ∈ bidPrices b, minPrice ≤ px)
    (ha : ∀ px ∈ askPrices b, px ≤ maxPrice) :
    addMarket b s q = addLimit b s (marketPx s) q TimeInForce.IOC ∧
    (∀ j ∈ indexIds (addMarket b s q).1, j ∈ indexIds b) ∧
    (s = Side.Buy → (addMarket b s q).1.bids = b.bids) ∧
    (s = Side.Sell → (addMarket b s q).1.asks = b.asks) := by
  have hneg : ¬ (TimeInForce.IOC = TimeInForce.FOK ∧
      canFullyMatch { b with next_id := b.next_id + 1 } s (marketPx s) q = false) := by
    rintro ⟨h, _⟩
    exact TimeInForce.noConfusion h
  by_cases hs : s = Side.Buy
  · subst hs
    have hpx : marketPx Side.Buy = maxPrice := rfl
    have hms : matchSide ⟨b.next_id, marketPx Side.Buy, q, Side.Buy,
          OrderType.Market, TimeInForce.IOC⟩ true b.asks =
        matchSide ⟨b.next_id, marketPx Side.Buy, q, Side.Buy,
          OrderType.Limit, TimeInForce.IOC⟩ true b.asks := by
      apply matchSide_market_eq_limit
      intro px hpx'
      have := ha px hpx'
      rw [hpx]
      intro hcon
      simp at hcon
      omega
    have hnr : ¬ (0 < (doMatch { b with next_id := b.next_id + 1 }
        ⟨b.next_id, marketPx Side.Buy, q, Side.Buy, OrderType.Limit,
          TimeInForce.IOC⟩).2 ∧ TimeInForce.IOC = TimeInForce.GFD) := by
      rintro ⟨_, h⟩
      exact TimeInForce.noConfusion h
    refine ⟨?_, ?_, fun _ => ?_, fun h => Side.noConfusion h⟩
    · rw [addMarket_eq, addLimit_norest b Side.Buy (marketPx Side.Buy) q
        TimeInForce.IOC hneg hnr]
      rw [doMatch_buy _ _ rfl, doMatch_buy _ _ rfl]
      dsimp only
      rw [hms]
    · intro j hj
      rw [addMarket_eq, doMatch_buy _ _ rfl] at hj
      exact indexIds_removeAll_sub b _ j hj
    · rw [addMarket_eq, doMatch_buy _ _ rfl]
  · have hsell : s = Side.Sell := by
      cases s
      · exact absurd rfl hs
      · rfl
    subst hsell
    have hpx : marketPx Side.Sell = minPrice := rfl
    have hms : matchSide ⟨b.next_id, marketPx Side.Sell, q, Side.Sell,
          OrderType.Market, TimeInForce.IOC⟩ false b.bids =
        matchSide ⟨b.next_id, marketPx Side.Sell, q, Side.Sell,
          OrderType.Limit, TimeInForce.IOC⟩ false b.bids := by
      apply matchSide_market_eq_limit
      intro px hpx'
      have := hb px hpx'
      rw [hpx]
      intro hcon
      simp at hcon
      omega
    have hnr : ¬ (0 < (doMatch { b with next_id := b.next_id + 1 }
        ⟨b.next_id, marketPx Side.Sell, q, Side.Sell, OrderType.Limit,
          TimeInForce.IOC⟩).2 ∧ TimeInForce.IOC = TimeInForce.GFD) := by
      rintro ⟨_, h⟩
      exact TimeInForce.noConfusion h
    refine ⟨?_, ?_, fun h => Side.noConfusion h, fun _ => ?_⟩
    · rw [addMarket_eq, addLimit_norest b Side.Sell (marketPx Side.Sell) q
        TimeInForce.IOC hneg hnr]
      rw [doMatch_sell _ _ (by simp), doMatch_sell _ _ (by simp)]
      dsimp only
      rw [hms]
    · intro j hj
      rw [addMarket_eq, doMatch_sell _ _ (by simp)] at hj
      exact indexIds_removeAll_sub b _ j hj
    · rw [addMarket_eq, doMatch_sell _ _ (by simp)]

/-- C3: `canFullyMatch` returns true exactly when the qty is
non-positive or the crossing opposite-side quantity covers it (on a
reachable book); being a pure function of the book, it cannot mutate
any state. -/
theorem C3_canFullyMatch_iff (b : Book) (hR : Reachable b) (s : Side) (p q : Int) :
    canFullyMatch b s p q = true ↔ (q ≤ 0 ∨ q ≤ crossSum b s p) := by
  have hI := Reachable_inv hR
  by_cases hq : q ≤ 0
  · rw [canFullyMatch, if_pos hq]
    simp [hq]
  · rw [canFullyMatch, if_neg hq]
    by_cases hs : s = Side.Buy
    · subst hs
      rw [if_pos rfl]
      rw [show (decide (Side.Buy = Side.Buy)) = true from rfl]
      rw [scanCan_iff p true q b.asks (by omega) hI.asksSorted hI.asksOK]
      rw [← crossSum_buy]
      simp [hq]
    · have hsell : s = Side.Sell := by
        cases s
        · exact absurd rfl hs
        · rfl
      subst hsell
      rw [if_neg (by simp)]
      rw [show (decide (Side.Sell = Side.Buy)) = false from rfl]
      rw [scanCan_iff p false q b.bids (by omega) hI.bidsSorted hI.bidsOK]
      rw [← crossSum_sell]
      simp [hq]

/-- C4: between public operations the book never rests crossed: every
bid price is strictly below every ask price. -/
theorem C4_uncrossed (b : Book) (hR : Reachable b) :
    ∀ pb ∈ bidPrices b, ∀ pa ∈ askPrices b, pb < pa :=
  (Reachable_inv hR).uncrossed

/-- C5: between public operations every price level carries `total_qty`
equal to the sum of its FIFO's remaining quantities and a non-empty
FIFO. -/
theorem C5_level_integrity (b : Book) (hR : Reachable b) :
    ∀ pl ∈ b.bids ++ b.asks, pl.2.total_qty = sumQ pl.2.orders ∧ pl.2.orders ≠ [] := by
  have hI := Reachable_inv hR
  intro pl hpl
  rcases List.mem_append.mp hpl with h | h
  · exact ⟨(hI.bidsOK pl h).2.1, (hI.bidsOK pl h).1⟩
  · exact ⟨(hI.asksOK pl h).2.1, (hI.asksOK pl h).1⟩

/-- C6: the stats aggregate exactly the emitted trades, and the stats
snapshot observed by the trade callback (recorded on the ghost log at
the moment the callback runs) already includes the trade being
delivered: it is the fold of the trades up to and including it. -/
theorem C6_stats_consistency (b : Book) (hR : Reachable b) :
    b.stats.trade_count = b.log.length ∧
    b.stats.traded_qty = sumT (b.log.map Prod.fst) ∧
    ∀ i, (h : i < b.log.length) →
      (b.log.get ⟨i, h⟩).2 = statsOf ((b.log.map Prod.fst).take (i + 1)) ∧
      (b.log.get ⟨i, h⟩).2.trade_count = i + 1 ∧
      (b.log.get ⟨i, h⟩).2.traded_qty = sumT ((b.log.map Prod.fst).take (i + 1)) ∧
      (b.log.get ⟨i, h⟩).2.has_last_trade = true ∧
      (b.log.get ⟨i, h⟩).2.last_trade_price = (b.log.get ⟨i, h⟩).1.price := by
  have hI := Reachable_inv hR
  refine ⟨by rw [hI.statsEq, statsOf_count]; simp,
    by rw [hI.statsEq, statsOf_qty], ?_⟩
  intro i h
  have hsnap := hI.snaps i h
  have hi : i < (b.log.map Prod.fst).length := by simpa using h
  have htake : (b.log.map Prod.fst).take (i + 1) =
      (b.log.map Prod.fst).take i ++ [(b.log.get ⟨i, h⟩).1] := by
    rw [List.take_succ]
    congr 1
    rw [List.getElem?_eq_getElem hi]
    simp
  refine ⟨hsnap, ?_, ?_, ?_, ?_⟩
  · rw [hsnap, statsOf_count, List.length_take]
    simp at hi ⊢
    omega
  · rw [hsnap, statsOf_qty]
  · rw [hsnap, htake]
    exact (statsOf_last _ _).2
  · rw [hsnap, htake]
    exact (statsOf_last _ _).1

/-- The priority discipline holds for any single sweep against the
opposite side of a well-formed book. -/
theorem PriorityOK_of_sweep (b : Book) (hI : Inv b) (s : Side) (o : Order) :
    PriorityOK b s ((matchSide o (sideIsBuy s) (oppLevels b s)).trades) := by
  by_cases hs : s = Side.Buy
  · subst hs
    have h1 : sideIsBuy Side.Buy = true := rfl
    have h2 : oppLevels b Side.Buy = b.asks := rfl
    rw [PriorityOK, h1, h2]
    exact ⟨matchSide_maker_mem true o b.asks,
      matchSide_pairwise true o b.asks hI.asksSorted,
      matchSide_segment true o b.asks hI.asksSorted⟩
  · have hsell : s = Side.Sell := by
      cases s
      · exact absurd rfl hs
      · rfl
    subst hsell
    have h1 : sideIsBuy Side.Sell = false := rfl
    have h2 : oppLevels b Side.Sell = b.bids := by
      rw [oppLevels, if_neg (by simp)]
    rw [PriorityOK, h1, h2]
    exact ⟨matchSide_maker_mem false o b.bids,
      matchSide_pairwise false o b.bids hI.bidsSorted,
      matchSide_segment false o b.bids hI.bidsSorted⟩

theorem newTrades_addLimit (b : Book) (s : Side) (p q : Int) (tif : TimeInForce)
    (hneg : ¬ (tif = TimeInForce.FOK ∧
      canFullyMatch { b with next_id := b.next_id + 1 } s p q = false)) :
    newTrades b (addLimit b s p q tif).1 =
      (matchSide ⟨b.next_id, p, q, s, OrderType.Limit, tif⟩ (sideIsBuy s)
        (oppLevels b s)).trades := by
  by_cases hrest : 0 < (doMatch { b with next_id := b.next_id + 1 }
      ⟨b.next_id, p, q, s, OrderType.Limit, tif⟩).2 ∧ tif = TimeInForce.GFD
  · rw [addLimit_rest b s p q tif hneg hrest]
    show newTrades b (addRestingOrder _ _) = _
    rw [newTrades, addRestingOrder_log]
    exact newTrades_doMatch { b with next_id := b.next_id + 1 } _ b rfl
  · rw [addLimit_norest b s p q tif hneg hrest]
    exact newTrades_doMatch { b with next_id := b.next_id + 1 } _ b rfl

theorem newTrades_addMarket (b : Book) (s : Side) (q : Int) :
    newTrades b (addMarket b s q).1 =
      (matchSide ⟨b.next_id, marketPx s, q, s, OrderType.Market, TimeInForce.IOC⟩
        (sideIsBuy s) (oppLevels b s)).trades := by
  rw [addMarket_eq]
  exact newTrades_doMatch { b with next_id := b.next_id + 1 } _ b rfl

theorem doMatch_index_sub (b : Book) (o : Order) :
    ∀ j ∈ indexIds (doMatch b o).1, j ∈ indexIds b := by
  intro j hj
  by_cases hs : o.side = Side.Buy
  · rw [doMatch_buy b o hs] at hj
    exact indexIds_removeAll_sub b _ j hj
  · rw [doMatch_sell b o hs] at hj
    exact indexIds_removeAll_sub b _ j hj

/-- C1: matching consumes the opposite side strictly best-price-first,
within a price strictly head-of-FIFO-first, and every trade prices at
the resting (maker) level's price — for every order entered through
`addLimit` or `addMarket` on a reachable book. -/
theorem C1_priority (b : Book) (hR : Reachable b) (s : Side) :
    (∀ p q tif out, addLimit b s p q tif = out → PriorityOK b s (newTrades b out.1)) ∧
    (∀ q out, addMarket b s q = out → PriorityOK b s (newTrades b out.1)) := by
  have hI := Reachable_inv hR
  constructor
  · intro p q tif out hout
    subst hout
    by_cases hfok : tif = TimeInForce.FOK ∧
        canFullyMatch { b with next_id := b.next_id + 1 } s p q = false
    · rw [addLimit_fok_reject b s p q tif hfok]
      dsimp only
      rw [newTrades_self b { b with next_id := b.next_id + 1 } rfl]
      exact PriorityOK_nil b s
    · rw [newTrades_addLimit b s p q tif hfok]
      exact PriorityOK_of_sweep b hI s _
  · intro q out hout
    subst hout
    rw [newTrades_addMarket b s q]
    exact PriorityOK_of_sweep b hI s _

/-- C2: an FOK limit with positive qty either fills exactly its whole
qty or leaves the book exactly as before (no trades, no state change);
in both cases its id never appears in the order index. -/
theorem C2_fok (b : Book) (hR : Reachable b) (s : Side) (p q : Int) (hq : 0 < q) :
    ∀ out, addLimit b s p q TimeInForce.FOK = out →
      (sumT (newTrades b out.1) = q ∨
        (newTrades b out.1 = [] ∧ out.1.bids = b.bids ∧ out.1.asks = b.asks ∧
          out.1.index = b.index ∧ out.1.stats = b.stats)) ∧
      out.2 ∉ indexIds out.1 := by
  have hI := Reachable_inv hR
  intro out hout
  subst hout
  by_cases hfok : TimeInForce.FOK = TimeInForce.FOK ∧
      canFullyMatch { b with next_id := b.next_id + 1 } s p q = false
  · rw [addLimit_fok_reject b s p q _ hfok]
    refine ⟨Or.inr ⟨?_, rfl, rfl, rfl, rfl⟩, ?_⟩
    · dsimp only
      exact newTrades_self b _ rfl
    · dsimp only
      intro hmem
      obtain ⟨e, he, hid⟩ := List.mem_map.mp hmem
      have := hI.idsLt e he
      omega
  · have hcan : canFullyMatch { b with next_id := b.next_id + 1 } s p q = true := by
      by_cases hc : canFullyMatch { b with next_id := b.next_id + 1 } s p q = true
      · exact hc
      · exact absurd ⟨rfl, by simpa using hc⟩ hfok
    have hnr : ¬ (0 < (doMatch { b with next_id := b.next_id + 1 }
        ⟨b.next_id, p, q, s, OrderType.Limit, TimeInForce.FOK⟩).2 ∧
        TimeInForce.FOK = TimeInForce.GFD) := by
      rintro ⟨_, h⟩
      exact TimeInForce.noConfusion h
    constructor
    · left
      have hnt := newTrades_addLimit b s p q TimeInForce.FOK hfok
      rw [hnt, matchSide_sumT]
      by_cases hs : s = Side.Buy
      · subst hs
        have h2 : oppLevels b Side.Buy = b.asks := rfl
        rw [h2]
        have hlft := matchSide_leftover true
          ⟨b.next_id, p, q, Side.Buy, OrderType.Limit, TimeInForce.FOK⟩ b.asks rfl
          hI.asksSorted hI.asksOK hq
        rw [canFullyMatch, if_neg (by omega)] at hcan
        rw [show (decide (Side.Buy = Side.Buy)) = true from rfl] at hcan
        have hcov : q ≤ crossQtyL true p b.asks :=
          (scanCan_iff p true q b.asks (by omega) hI.asksSorted hI.asksOK).mp hcan
        rw [show sideIsBuy Side.Buy = true from rfl, hlft]
        dsimp only
        omega
      · have hsell : s = Side.Sell := by
          cases s
          · exact absurd rfl hs
          · rfl
        subst hsell
        have h2 : oppLevels b Side.Sell = b.bids := by
          rw [oppLevels, if_neg (by simp)]
        rw [h2]
        have hlft := matchSide_leftover false
          ⟨b.next_id, p, q, Side.Sell, OrderType.Limit, TimeInForce.FOK⟩ b.bids rfl
          hI.bidsSorted hI.bidsOK hq
        rw [canFullyMatch, if_neg (by omega)] at hcan
        rw [show (decide (Side.Sell = Side.Buy)) = false from rfl] at hcan
        rw [if_neg (by simp)] at hcan
        have hcov : q ≤ crossQtyL false p b.bids :=
          (scanCan_iff p false q b.bids (by omega) hI.bidsSorted hI.bidsOK).mp hcan
        rw [show sideIsBuy Side.Sell = false from rfl, hlft]
        dsimp only
        omega
    · rw [addLimit_norest b s p q _ hfok hnr]
      dsimp only
      intro hmem
      have hsub := doMatch_index_sub { b with next_id := b.next_id + 1 }
        ⟨b.next_id, p, q, s, OrderType.Limit, TimeInForce.FOK⟩ b.next_id hmem
      obtain ⟨e, he, hid⟩ := List.mem_map.mp hsub
      have := hI.idsLt e he
      omega

/-! ## Id-freshness lemmas along steps (for cancel idempotence) -/

theorem addMarket_next (b : Book) (s : Side) (q : Int) :
    (addMarket b s q).1.next_id = b.next_id + 1 := by
  rw [addMarket_eq]
  show (doMatch _ _).1.next_id = _
  rw [doMatch_next]

theorem addRestingOrder_ids (b : Book) (o : Order) :
    ∀ j ∈ indexIds (addRestingOrder b o), j = o.id ∨ j ∈ indexIds b := by
  intro j hj
  have hmem : j ∈ (indexInsert b.index o.id ⟨o.side, o.price⟩).map Prod.fst := by
    by_cases hs : o.side = Side.Buy
    · simp only [addRestingOrder, if_pos hs] at hj
      exact hj
    · simp only [addRestingOrder, if_neg hs] at hj
      exact hj
  obtain ⟨e, he, hid⟩ := List.mem_map.mp hmem
  rcases (mem_indexInsert _ _ _ e).mp he with h | ⟨h, _⟩
  · subst h
    left
    simpa using hid.symm
  · right
    exact List.mem_map.mpr ⟨e, h, hid⟩

theorem addLimit_index_sub (b : Book) (s : Side) (p q : Int) (tif : TimeInForce) :
    ∀ j ∈ indexIds (addLimit b s p q tif).1, j ∈ indexIds b ∨ j = b.next_id := by
  intro j hj
  by_cases hfok : tif = TimeInForce.FOK ∧
      canFullyMatch { b with next_id := b.next_id + 1 } s p q = false
  · rw [addLimit_fok_reject b s p q tif hfok] at hj
    left
    exact hj
  · by_cases hrest : 0 < (doMatch { b with next_id := b.next_id + 1 }
        ⟨b.next_id, p, q, s, OrderType.Limit, tif⟩).2 ∧ tif = TimeInForce.GFD
    · rw [addLimit_rest b s p q tif hfok hrest] at hj
      rcases addRestingOrder_ids _ _ j hj with h | h
      · right
        exact h
      · left
        exact doMatch_index_sub { b with next_id := b.next_id + 1 } _ j h
    · rw [addLimit_norest b s p q tif hfok hrest] at hj
      left
      exact doMatch_index_sub { b with next_id := b.next_id + 1 } _ j hj

theorem cancel_ids_sub (b : Book) (i : Int) :
    ∀ j ∈ indexIds (cancel b i).1, j ∈ indexIds b := by
  intro j hj
  cases hl : lookupIndex b.index i with
  | none =>
    rw [cancel_none b i hl] at hj
    exact hj
  | some loc =>
    have hgoal : ∀ X : Book, X.index = indexErase b.index i →
        j ∈ indexIds X → j ∈ indexIds b := by
      intro X hX hm
      rw [indexIds, hX] at hm
      exact (mem_indexIds_of_erase hm).1
    by_cases hs : loc.side = Side.Buy
    · cases hc : cancelInLevels b.bids loc.price i with
      | none => rw [cancel_buy_stale b i loc hl hs hc] at hj; exact hgoal _ rfl hj
      | some ls' => rw [cancel_buy_some b i loc hl hs ls' hc] at hj; exact hgoal _ rfl hj
    · cases hc : cancelInLevels b.asks loc.price i with
      | none => rw [cancel_sell_stale b i loc hl hs hc] at hj; exact hgoal _ rfl hj
      | some ls' => rw [cancel_sell_some b i loc hl hs ls' hc] at hj; exact hgoal _ rfl hj

theorem Step_next_le {b b' : Book} (h : Step b b') : b.next_id ≤ b'.next_id := by
  cases h with
  | limit s p q tif => rw [addLimit_next]; omega
  | market s q => rw [addMarket_next]; omega
  | cancelStep i => rw [cancel_next]

theorem Step_ids {b b' : Book} (h : Step b b') :
    ∀ j ∈ indexIds b', j ∈ indexIds b ∨ j = b.next_id := by
  cases h with
  | limit s p q tif => exact addLimit_index_sub b s p q tif
  | market s q =>
    intro j hj
    rw [addMarket_eq] at hj
    left
    exact doMatch_index_sub { b with next_id := b.next_id + 1 } _ j hj
  | cancelStep i =>
    intro j hj
    left
    exact cancel_ids_sub b i j hj

/-- Once an id has left the index and is below the counter, no later
reachable state can contain it again. -/
theorem ReachFrom_no_return {b₁ b₂ : Book} (h : ReachFrom b₁ b₂) (i : Int)
    (hlt : i < b₁.next_id) (hnin : i ∉ indexIds b₁) :
    i ∉ indexIds b₂ ∧ i < b₂.next_id := by
  induction h with
  | refl => exact ⟨hnin, hlt⟩
  | tail _ hstep ih =>
    obtain ⟨ih1, ih2⟩ := ih
    refine ⟨?_, lt_of_lt_of_le ih2 (Step_next_le hstep)⟩
    intro hmem
    rcases Step_ids hstep i hmem with h | h
    · exact ih1 h
    · omega

theorem cancel_false_of_not_mem (b : Book) (i : Int) (h : i ∉ indexIds b) :
    cancel b i = (b, false) :=
  cancel_none b i ((lookupIndex_none _ _).mpr h)

/-- C7: cancel of an unknown id returns false and changes nothing; a
successful cancel removes exactly the resting order with that id
(index entry, its FIFO node and its qty), leaves no empty level behind,
and can never succeed again for the same id in any later state. -/
theorem C7_cancel (b : Book) (hR : Reachable b) (i : Int) :
    (i ∉ indexIds b → cancel b i = (b, false)) ∧
    ∀ b₁, cancel b i = (b₁, true) →
      i ∈ indexIds b ∧ i ∉ indexIds b₁ ∧ b₁.index = indexErase b.index i ∧
      (∃ o ∈ allOrders b, o.id = i ∧ orderCount b₁ + 1 = orderCount b ∧
        restingQty b₁ + o.qty = restingQty b) ∧
      (∀ pl ∈ b₁.bids ++ b₁.asks, pl.2.orders ≠ []) ∧
      (∀ b₂, ReachFrom b₁ b₂ → (cancel b₂ i).2 = false) := by
  have hI := Reachable_inv hR
  refine ⟨fun h => cancel_false_of_not_mem b i h, ?_⟩
  intro b₁ hc
  cases hl : lookupIndex b.index i with
  | none =>
    rw [cancel_none b i hl] at hc
    exact absurd (congrArg Prod.snd hc) (by simp)
  | some loc =>
    have hmem := lookupIndex_some_mem _ _ _ hl
    have himem : i ∈ indexIds b := List.mem_map.mpr ⟨(i, loc), hmem, rfl⟩
    have hilt : i < b.next_id := hI.idsLt (i, loc) hmem
    obtain ⟨⟨plp, plv⟩, hpl, hpx, o₀, ho₀, hid₀⟩ := hI.locs (i, loc) hmem
    have hpx' : plp = loc.price := by simpa using hpx
    subst hpx'
    have hI₁ := Inv_cancel b i hI
    by_cases hs : loc.side = Side.Buy
    · have hplm : (loc.price, plv) ∈ b.bids := by
        simp only [sideLevels] at hpl
        rwa [if_pos hs] at hpl
      obtain ⟨ls', o', hceq, ho'mem, ho'id, hOK', hpw', hsub', hlen', hsum', hpres'⟩ :=
        cancelInLevels_result (pOrd false) b.bids loc.price i hI.bidsSorted
          (fun x y h => pOrd_ne false x y h) hI.bidsOK plv hplm o₀ ho₀ hid₀
      have hcb := cancel_buy_some b i loc hl hs ls' hceq
      rw [hcb] at hc hI₁
      have hb₁ : b₁ = { b with bids := ls', index := indexErase b.index i } :=
        (congrArg Prod.fst hc).symm
      subst hb₁
      refine ⟨himem, ?_, rfl, ?_, ?_, ?_⟩
      · intro hm
        exact (mem_indexIds_of_erase hm).2 rfl
      · refine ⟨o', ?_, ho'id, ?_, ?_⟩
        · show o' ∈ ordersOf (b.bids ++ b.asks)
          rw [ordersOf_append]
          exact List.mem_append_left _ (ordersOf_mem b.bids _ hplm o' ho'mem)
        · show (ordersOf (ls' ++ b.asks)).length + 1 = (ordersOf (b.bids ++ b.asks)).length
          rw [ordersOf_append, ordersOf_append, List.length_append, List.length_append]
          omega
        · show sumQ (ordersOf (ls' ++ b.asks)) + o'.qty = sumQ (ordersOf (b.bids ++ b.asks))
          rw [ordersOf_append, ordersOf_append, sumQ_append, sumQ_append]
          omega
      · intro pl hplm2
        rcases List.mem_append.mp hplm2 with h | h
        · exact (hI₁.bidsOK pl h).1
        · exact (hI₁.asksOK pl h).1
      · intro b₂ hreach
        have hnin₂ := (ReachFrom_no_return hreach i hilt
          (fun hm => (mem_indexIds_of_erase hm).2 rfl)).1
        rw [cancel_false_of_not_mem b₂ i hnin₂]
    · have hplm : (loc.price, plv) ∈ b.asks := by
        simp only [sideLevels] at hpl
        rwa [if_neg hs] at hpl
      obtain ⟨ls', o', hceq, ho'mem, ho'id, hOK', hpw', hsub', hlen', hsum', hpres'⟩ :=
        cancelInLevels_result (pOrd true) b.asks loc.price i hI.asksSorted
          (fun x y h => pOrd_ne true x y h) hI.asksOK plv hplm o₀ ho₀ hid₀
      have hcb := cancel_sell_some b i loc hl hs ls' hceq
      rw [hcb] at hc hI₁
      have hb₁ : b₁ = { b with asks := ls', index := indexErase b.index i } :=
        (congrArg Prod.fst hc).symm
      subst hb₁
      refine ⟨himem, ?_, rfl, ?_, ?_, ?_⟩
      · intro hm
        exact (mem_indexIds_of_erase hm).2 rfl
      · refine ⟨o', ?_, ho'id, ?_, ?_⟩
        · show o' ∈ ordersOf (b.bids ++ b.asks)
          rw [ordersOf_append]
          exact List.mem_append_right _ (ordersOf_mem b.asks _ hplm o' ho'mem)
        · show (ordersOf (b.bids ++ ls')).length + 1 = (ordersOf (b.bids ++ b.asks)).length
          rw [ordersOf_append, ordersOf_append, List.length_append, List.length_append]
          omega
        · show sumQ (ordersOf (b.bids ++ ls')) + o'.qty = sumQ (ordersOf (b.bids ++ b.asks))
          rw [ordersOf_append, ordersOf_append, sumQ_append, sumQ_append]
          omega
      · intro pl hplm2
        rcases List.mem_append.mp hplm2 with h | h
        · exact (hI₁.bidsOK pl h).1
        · exact (hI₁.asksOK pl h).1
      · intro b₂ hreach
        have hnin₂ := (ReachFrom_no_return hreach i hilt
          (fun hm => (mem_indexIds_of_erase hm).2 rfl)).1
        rw [cancel_false_of_not_mem b₂ i hnin₂]

/-- C8 counterexample: the claim quantifies over every `old_id`, but
when `old_id` happens to equal the id the monotonic counter assigns to
the replacement order (here 1 on a fresh book), the cancel misses, the
new GFD order rests under id = old_id, and `old_id` IS present in the
index afterwards — refuting "afterwards old_id is absent from the order
index" as universally stated. -/
theorem C8_replace_cex :
    Reachable Book.empty ∧
    (replace Book.empty 1 Side.Buy 10 5 TimeInForce.GFD).2 = 1 ∧
    (1 : Int) ∈ indexIds (replace Book.empty 1 Side.Buy 10 5 TimeInForce.GFD).1 :=
  ⟨Relation.ReflTransGen.refl, by decide, by decide⟩

/-- C8 (amended with `old_id < next_id`, i.e. `old_id` is not the very
id the counter is about to assign — true of every previously issued
id): `replace` is exactly cancel-then-addLimit, returns the fresh
counter id (never zero), leaves `old_id` absent from the index, and if
the new order rests it sits at the tail of its level's FIFO. -/
theorem C8_replace_amended (b : Book) (hR : Reachable b) (old : Int)
    (hold : old < b.next_id) (s : Side) (p q : Int) (tif : TimeInForce) :
    ∀ out, replace b old s p q tif = out →
      out = addLimit (cancel b old).1 s p q tif ∧
      out.2 = b.next_id ∧ out.2 ≠ 0 ∧
      old ∉ indexIds out.1 ∧
      (out.2 ∈ indexIds out.1 →
        ∃ pl ∈ sideLevels out.1 s, pl.1 = p ∧
          (pl.2.orders.map Order.id).getLast? = some out.2) := by
  have hI := Reachable_inv hR
  intro out hout
  subst hout
  have hI₁ : Inv (cancel b old).1 := Inv_cancel b old hI
  have hn₁ : (cancel b old).1.next_id = b.next_id := cancel_next b old
  refine ⟨rfl, ?_, ?_, ?_, ?_⟩
  · show (addLimit (cancel b old).1 s p q tif).2 = b.next_id
    rw [addLimit_snd, hn₁]
  · show (addLimit (cancel b old).1 s p q tif).2 ≠ 0
    rw [addLimit_snd, hn₁]
    have := hI.oneId
    omega
  · show old ∉ indexIds (addLimit (cancel b old).1 s p q tif).1
    intro hm
    rcases addLimit_index_sub (cancel b old).1 s p q tif old hm with h | h
    · exact cancel_rm b old h
    · rw [hn₁] at h
      omega
  · show (addLimit (cancel b old).1 s p q tif).2 ∈
        indexIds (addLimit (cancel b old).1 s p q tif).1 →
      ∃ pl ∈ sideLevels (addLimit (cancel b old).1 s p q tif).1 s, pl.1 = p ∧
        (pl.2.orders.map Order.id).getLast? =
          some (addLimit (cancel b old).1 s p q tif).2
    rw [addLimit_snd]
    intro hmem
    by_cases hfok : tif = TimeInForce.FOK ∧
        canFullyMatch { (cancel b old).1 with
          next_id := (cancel b old).1.next_id + 1 } s p q = false
    · rw [addLimit_fok_reject (cancel b old).1 s p q tif hfok] at hmem ⊢
      exfalso
      obtain ⟨e, he, hid⟩ := List.mem_map.mp hmem
      have := hI₁.idsLt e he
      omega
    · by_cases hrest : 0 < (doMatch { (cancel b old).1 with
          next_id := (cancel b old).1.next_id + 1 }
          ⟨(cancel b old).1.next_id, p, q, s, OrderType.Limit, tif⟩).2 ∧
          tif = TimeInForce.GFD
      · rw [addLimit_rest (cancel b old).1 s p q tif hfok hrest] at hmem ⊢
        by_cases hside : s = Side.Buy
        · subst hside
          obtain ⟨pl, hpl, hpx, hpm, hlast⟩ := insertOrder_tail bidBefore
            { (⟨(cancel b old).1.next_id, p, q, Side.Buy, OrderType.Limit, tif⟩ : Order) with
                qty := (doMatch { (cancel b old).1 with
                  next_id := (cancel b old).1.next_id + 1 }
                  ⟨(cancel b old).1.next_id, p, q, Side.Buy, OrderType.Limit, tif⟩).2 }
            (doMatch { (cancel b old).1 with
              next_id := (cancel b old).1.next_id + 1 }
              ⟨(cancel b old).1.next_id, p, q, Side.Buy, OrderType.Limit, tif⟩).1.bids
          refine ⟨pl, ?_, hpx, hlast⟩
          show pl ∈ sideLevels (addRestingOrder _ _) Side.Buy
          rw [sideLevels, if_pos rfl]
          simp only [addRestingOrder, if_pos]
          exact hpl
        · have hsell : s = Side.Sell := by
            cases s
            · exact absurd rfl hside
            · rfl
          subst hsell
          obtain ⟨pl, hpl, hpx, hpm, hlast⟩ := insertOrder_tail askBefore
            { (⟨(cancel b old).1.next_id, p, q, Side.Sell, OrderType.Limit, tif⟩ : Order) with
                qty := (doMatch { (cancel b old).1 with
                  next_id := (cancel b old).1.next_id + 1 }
                  ⟨(cancel b old).1.next_id, p, q, Side.Sell, OrderType.Limit, tif⟩).2 }
            (doMatch { (cancel b old).1 with
              next_id := (cancel b old).1.next_id + 1 }
              ⟨(cancel b old).1.next_id, p, q, Side.Sell, OrderType.Limit, tif⟩).1.asks
          refine ⟨pl, ?_, hpx, hlast⟩
          show pl ∈ sideLevels (addRestingOrder _ _) Side.Sell
          rw [sideLevels, if_neg (by simp)]
          rw [addRestingOrder, if_neg (show ¬ (Side.Sell = Side.Buy) from by simp)]
          exact hpl
      · rw [addLimit_norest (cancel b old).1 s p q tif hfok hrest] at hmem ⊢
        exfalso
        have hsub := doMatch_index_sub { (cancel b old).1 with
          next_id := (cancel b old).1.next_id + 1 } _ _ hmem
        obtain ⟨e, he, hid⟩ := List.mem_map.mp hsub
        have := hI₁.idsLt e he
        omega

/-! ## Witnesses: the claim theorems applied at concrete inputs -/

theorem reach_bW1 : Reachable bW1 :=
  Relation.ReflTransGen.single (Step.limit Book.empty Side.Sell 100 50 TimeInForce.GFD)

theorem reach_bW2 : Reachable bW2 :=
  Relation.ReflTransGen.tail reach_bW1 (Step.limit bW1 Side.Buy 100 30 TimeInForce.GFD)

theorem C1_priority_witness :
    Reachable bW1 ∧ PriorityOK bW1 Side.Buy
      (newTrades bW1 (addLimit bW1 Side.Buy 100 30 TimeInForce.GFD).1) :=
  ⟨reach_bW1, (C1_priority bW1 reach_bW1 Side.Buy).1 100 30 TimeInForce.GFD
    (addLimit bW1 Side.Buy 100 30 TimeInForce.GFD) rfl⟩

theorem C2_fok_witness :
    Reachable bW1 ∧ (0 : Int) < 40 ∧
    ((sumT (newTrades bW1 (addLimit bW1 Side.Buy 100 40 TimeInForce.FOK).1) = 40 ∨
      (newTrades bW1 (addLimit bW1 Side.Buy 100 40 TimeInForce.FOK).1 = [] ∧
        (addLimit bW1 Side.Buy 100 40 TimeInForce.FOK).1.bids = bW1.bids ∧
        (addLimit bW1 Side.Buy 100 40 TimeInForce.FOK).1.asks = bW1.asks ∧
        (addLimit bW1 Side.Buy 100 40 TimeInForce.FOK).1.index = bW1.index ∧
        (addLimit bW1 Side.Buy 100 40 TimeInForce.FOK).1.stats = bW1.stats)) ∧
      (addLimit bW1 Side.Buy 100 40 TimeInForce.FOK).2 ∉
        indexIds (addLimit bW1 Side.Buy 100 40 TimeInForce.FOK).1) :=
  ⟨reach_bW1, by decide,
    C2_fok bW1 reach_bW1 Side.Buy 100 40 (by decide)
      (addLimit bW1 Side.Buy 100 40 TimeInForce.FOK) rfl⟩

theorem C3_canFullyMatch_witness :
    Reachable bW1 ∧
    (canFullyMatch bW1 Side.Buy 100 40 = true ↔
      ((40 : Int) ≤ 0 ∨ (40 : Int) ≤ crossSum bW1 Side.Buy 100)) :=
  ⟨reach_bW1, C3_canFullyMatch_iff bW1 reach_bW1 Side.Buy 100 40⟩

theorem C4_uncrossed_witness :
    Reachable bW2 ∧ ∀ pb ∈ bidPrices bW2, ∀ pa ∈ askPrices bW2, pb < pa :=
  ⟨reach_bW2, C4_uncrossed bW2 reach_bW2⟩

theorem C5_level_integrity_witness :
    Reachable bW2 ∧ ∀ pl ∈ bW2.bids ++ bW2.asks,
      pl.2.total_qty = sumQ pl.2.orders ∧ pl.2.orders ≠ [] :=
  ⟨reach_bW2, C5_level_integrity bW2 reach_bW2⟩

theorem C6_stats_witness :
    Reachable bW2 ∧
    (bW2.stats.trade_count = bW2.log.length ∧
     bW2.stats.traded_qty = sumT (bW2.log.map Prod.fst) ∧
     ∀ i, (h : i < bW2.log.length) →
       (bW2.log.get ⟨i, h⟩).2 = statsOf ((bW2.log.map Prod.fst).take (i + 1)) ∧
       (bW2.log.get ⟨i, h⟩).2.trade_count = i + 1 ∧
       (bW2.log.get ⟨i, h⟩).2.traded_qty = sumT ((bW2.log.map Prod.fst).take (i + 1)) ∧
       (bW2.log.get ⟨i, h⟩).2.has_last_trade = true ∧
       (bW2.log.get ⟨i, h⟩).2.last_trade_price = (bW2.log.get ⟨i, h⟩).1.price) :=
  ⟨reach_bW2, C6_stats_consistency bW2 reach_bW2⟩

theorem C7_cancel_witness :
    Reachable bW1 ∧
    ((1 ∉ indexIds bW1 → cancel bW1 1 = (bW1, false)) ∧
     ∀ b₁, cancel bW1 1 = (b₁, true) →
       1 ∈ indexIds bW1 ∧ 1 ∉ indexIds b₁ ∧ b₁.index = indexErase bW1.index 1 ∧
       (∃ o ∈ allOrders bW1, o.id = 1 ∧ orderCount b₁ + 1 = orderCount bW1 ∧
         restingQty b₁ + o.qty = restingQty bW1) ∧
       (∀ pl ∈ b₁.bids ++ b₁.asks, pl.2.orders ≠ []) ∧
       (∀ b₂, ReachFrom b₁ b₂ → (cancel b₂ 1).2 = false)) :=
  ⟨reach_bW1, C7_cancel bW1 reach_bW1 1⟩

theorem C8_replace_witness :
    Reachable bW1 ∧ (1 : Int) < bW1.next_id ∧
    ((replace bW1 1 Side.Sell 102 30 TimeInForce.GFD) =
        addLimit (cancel bW1 1).1 Side.Sell 102 30 TimeInForce.GFD ∧
      (replace bW1 1 Side.Sell 102 30 TimeInForce.GFD).2 = bW1.next_id ∧
      (replace bW1 1 Side.Sell 102 30 TimeInForce.GFD).2 ≠ 0 ∧
      1 ∉ indexIds (replace bW1 1 Side.Sell 102 30 TimeInForce.GFD).1 ∧
      ((replace bW1 1 Side.Sell 102 30 TimeInForce.GFD).2 ∈
          indexIds (replace bW1 1 Side.Sell 102 30 TimeInForce.GFD).1 →
        ∃ pl ∈ sideLevels (replace bW1 1 Side.Sell 102 30 TimeInForce.GFD).1 Side.Sell,
          pl.1 = 102 ∧ (pl.2.orders.map Order.id).getLast? =
            some (replace bW1 1 Side.Sell 102 30 TimeInForce.GFD).2)) :=
  ⟨reach_bW1, by decide,
    C8_replace_amended bW1 reach_bW1 1 (by decide) Side.Sell 102 30 TimeInForce.GFD
      (replace bW1 1 Side.Sell 102 30 TimeInForce.GFD) rfl⟩

theorem C9_market_witness :
    (∀ px ∈ bidPrices bW1, minPrice ≤ px) ∧ (∀ px ∈ askPrices bW1, px ≤ maxPrice) ∧
    (addMarket bW1 Side.Buy 60 =
        addLimit bW1 Side.Buy (marketPx Side.Buy) 60 TimeInForce.IOC ∧
      (∀ j ∈ indexIds (addMarket bW1 Side.Buy 60).1, j ∈ indexIds bW1) ∧
      (Side.Buy = Side.Buy → (addMarket bW1 Side.Buy 60).1.bids = bW1.bids) ∧
      (Side.Buy = Side.Sell → (addMarket bW1 Side.Buy 60).1.asks = bW1.asks)) :=
  ⟨by decide, by decide,
    C9_market_equiv bW1 Side.Buy 60 (by decide) (by decide)⟩

theorem C10_nonpositive_witness :
    (0 : Int) ≤ 0 ∧
    (addLimit bW1 Side.Buy 100 0 TimeInForce.GFD =
        ({ bW1 with next_id := bW1.next_id + 1 }, bW1.next_id) ∧
      addMarket bW1 Side.Buy 0 =
        ({ bW1 with next_id := bW1.next_id + 1 }, bW1.next_id)) :=
  ⟨by decide, C10_nonpositive_qty bW1 Side.Buy 100 0 TimeInForce.GFD (by decide)⟩

end Matching
